import Mathlib

/-!
# Verification of the `tree-struct` library

A shallow embedding of the mutable ordered-tree container from the
`tree-struct` repository.  Pointer-based nodes (`BaseNode<T>` in
`src/node.rs`) are modelled by an explicit heap: a finite association
list from node addresses (`Nat`) to node records.  A node record holds
the user content, an optional parent pointer and the ordered list of
(owned) child pointers, mirroring the fields `content`, `parent` and
`children` of `BaseNode<T>`.

A `Tree` value in Rust is a root pointer whose node is parentless; the
collection of all simultaneously existing `Tree`s is the `roots` list of
the state `TState`.  `NodeRef` (`NonNull<dyn Node>` in the source) is an
address, i.e. a `Nat`.

The iterators of `src/iter.rs` never consult parent pointers, so they
are modelled over a purely functional rose tree `RTree` whose `children`
field mirrors the `children()` view used by the iterator code.
-/

set_option autoImplicit false

namespace TreeStruct

/-- One heap cell: the fields of `BaseNode<T>` (content specialised to
`Nat`; the structural claims are independent of the content type). -/
structure BNode where
  content : Nat
  parent : Option Nat
  children : List Nat
deriving DecidableEq, Repr

/-- The heap: an association list from addresses to node records. -/
abbrev Heap := List (Nat × BNode)

/-- Dereference an address (first matching entry). -/
def Heap.find : Heap → Nat → Option BNode
  | [], _ => none
  | (k, n) :: t, i => if i = k then some n else Heap.find t i

/-- In-place update of the node at address `i` (all entries with that key). -/
def Heap.upd (h : Heap) (i : Nat) (f : BNode → BNode) : Heap :=
  h.map fun e => if e.1 = i then (e.1, f e.2) else e

/-- `node.parent()` dereferenced: the parent address of the node at `i`. -/
def Heap.parentOf (h : Heap) (i : Nat) : Option Nat :=
  (h.find i).bind BNode.parent

@[simp] theorem Heap.find_nil (i : Nat) : Heap.find [] i = none := rfl

@[simp] theorem Heap.find_cons (k : Nat) (n : BNode) (t : Heap) (i : Nat) :
    Heap.find ((k, n) :: t) i = if i = k then some n else Heap.find t i := rfl

theorem Heap.find_append (h₁ h₂ : Heap) (i : Nat) :
    Heap.find (h₁ ++ h₂) i =
      match Heap.find h₁ i with
      | some n => some n
      | none => Heap.find h₂ i := by
  induction h₁ with
  | nil => simp
  | cons e t ih =>
    obtain ⟨k, n⟩ := e
    by_cases hk : i = k <;> simp [hk, ih]

theorem Heap.find_mem {h : Heap} {i : Nat} {n : BNode}
    (hf : h.find i = some n) : (i, n) ∈ h := by
  induction h with
  | nil => simp [Heap.find] at hf
  | cons e t ih =>
    obtain ⟨k, m⟩ := e
    by_cases hk : i = k
    · subst hk
      simp_all
    · simp [hk] at hf
      exact List.mem_cons_of_mem _ (ih hf)

theorem Heap.find_isSome_iff_mem_keys {h : Heap} {i : Nat} :
    (h.find i).isSome ↔ i ∈ h.map Prod.fst := by
  induction h with
  | nil => simp
  | cons e t ih =>
    obtain ⟨k, m⟩ := e
    by_cases hk : i = k <;> simp [hk, ih]

theorem Heap.mem_find_of_nodup {h : Heap} {i : Nat} {n : BNode}
    (hd : (h.map Prod.fst).Nodup) (hm : (i, n) ∈ h) : h.find i = some n := by
  induction h with
  | nil => simp at hm
  | cons e t ih =>
    obtain ⟨k, m⟩ := e
    simp only [List.map_cons, List.nodup_cons] at hd
    rcases List.mem_cons.mp hm with h1 | h1
    · cases h1
      simp
    · have hik : i ≠ k := by
        intro he
        subst he
        exact hd.1 (List.mem_map.mpr ⟨(i, n), h1, rfl⟩)
      simp [hik, ih hd.2 h1]

@[simp] theorem Heap.keys_upd (h : Heap) (i : Nat) (f : BNode → BNode) :
    (h.upd i f).map Prod.fst = h.map Prod.fst := by
  induction h with
  | nil => rfl
  | cons e t ih =>
    have hhd : (if e.1 = i then (e.1, f e.2) else e).1 = e.1 := by
      by_cases hk : e.1 = i <;> simp [hk]
    simp only [Heap.upd, List.map_cons] at ih ⊢
    rw [hhd, ih]

theorem Heap.find_upd (h : Heap) (i : Nat) (f : BNode → BNode) (j : Nat) :
    (h.upd i f).find j = if j = i then (h.find j).map f else h.find j := by
  induction h with
  | nil => simp [Heap.upd]
  | cons e t ih =>
    obtain ⟨k, n⟩ := e
    simp only [Heap.upd, List.map_cons] at ih ⊢
    by_cases hk : k = i
    · subst hk
      by_cases hj : j = k
      · subst hj
        simp
      · simp [hj, ih]
    · by_cases hj : j = k
      · subst hj
        simp [hk]
      · simp [hk, hj, ih]

theorem Heap.find_upd_self {h : Heap} {i : Nat} {n : BNode} (f : BNode → BNode)
    (hf : h.find i = some n) : (h.upd i f).find i = some (f n) := by
  simp [Heap.find_upd, hf]

theorem Heap.find_upd_other {h : Heap} {i j : Nat} (f : BNode → BNode)
    (hne : j ≠ i) : (h.upd i f).find j = h.find j := by
  simp [Heap.find_upd, hne]

/-!
## The ancestor walk

`is_descendant` (`src/lib.rs`) and `has_descendant` (`src/node.rs`) walk
the parent chain of the argument node:

    let mut ancestor = other.parent();
    while let Some(node) = ancestor { if ptr_eq(this, node) { return true; } ancestor = node.parent(); }

The loop is embedded as the list of visited ancestors, with explicit
fuel; `Heap.ancestors` uses fuel `h.length + 1`, which (as proved below)
is enough for the walk to reach a parentless node in any well-formed heap.
-/

/-- The addresses visited by the parent-chain walk starting (exclusively)
at `i`, limited by `fuel`. -/
def ancWalk (h : Heap) : Nat → Nat → List Nat
  | 0, _ => []
  | fuel + 1, i =>
    match h.parentOf i with
    | none => []
    | some p => p :: ancWalk h fuel p

/-- The full ancestor chain of `i` (fuel `h.length + 1` suffices on
well-formed heaps). -/
def Heap.ancestors (h : Heap) (i : Nat) : List Nat :=
  ancWalk h (h.length + 1) i

/-- `has_descendant(self, other)` from `src/node.rs`: walk every ancestor
of `other` until `self` is found. -/
def hasDescendant (h : Heap) (a i : Nat) : Prop :=
  a ∈ h.ancestors i

instance (h : Heap) (a i : Nat) : Decidable (hasDescendant h a i) := by
  unfold hasDescendant
  infer_instance

/-- `is_descendant(this, other)` from `src/lib.rs`: false if the two
pointers are equal, otherwise walk up the tree from `other` looking for
`this`. -/
def isDescendant (h : Heap) (root i : Nat) : Prop :=
  i ≠ root ∧ hasDescendant h root i

instance (h : Heap) (root i : Nat) : Decidable (isDescendant h root i) := by
  unfold isDescendant
  infer_instance

/-!
## Trees and the mutating operations

A `TState` is the collection of all simultaneously existing `Tree`
values: the heap of live nodes and the list of root addresses.
-/

structure TState where
  heap : Heap
  roots : List Nat
deriving DecidableEq, Repr

/--
`Tree::detach_descendant(&mut self, descendant)` from `src/lib.rs`,
lifted to the state of all trees.  `r` is the root of the tree the
method is called on (the guard `r ∈ s.roots` models that the receiver is
an actual `Tree`), `i` is the `NonNull` node pointer passed in.

The source:
* returns `None` when `is_descendant(root, descendant)` fails;
* otherwise unwraps `descendant.parent` (the `none` branch models the
  `unwrap` panic; it is unreachable once the walk succeeded),
* locates `descendant` in `parent.children` by pointer equality (the
  `none` branch models the `expect` panic),
* removes it (`Vec::remove(index)` = `List.eraseIdx`), clears its parent
  pointer and returns the removed node as the root of a new `Tree`.
-/
def detachDescendant (s : TState) (r i : Nat) : Option (Nat × TState) :=
  if r ∈ s.roots then
    if isDescendant s.heap r i then
      match s.heap.parentOf i with
      | none => none
      | some p =>
        match s.heap.find p with
        | none => none
        | some pn =>
          match pn.children.findIdx? (· = i) with
          | none => none
          | some idx =>
            match pn.children[idx]? with
            | none => none
            | some x =>
              let h1 := s.heap.upd p fun n => { n with children := n.children.eraseIdx idx }
              let h2 := h1.upd x fun n => { n with parent := none }
              some (x, ⟨h2, x :: s.roots⟩)
    else none
  else none

/-- `Tree::borrow_descendant` from `src/lib.rs`: same guard as
`detach_descendant`; on success it returns the (pinned mutable pointer
to) the referenced node itself. -/
def borrowDescendant (s : TState) (r i : Nat) : Option Nat :=
  if r ∈ s.roots ∧ isDescendant s.heap r i then some i else none

/-- `p` lies in the tree owned by root `c`: it is `c` itself or the walk
up from `p` meets `c`.  Used to express the freedom from aliasing that
the Rust borrow checker grants `append_child`/`insert_child`: the
mutably borrowed receiver cannot be a node of the `Tree` being consumed. -/
def inTreeOf (h : Heap) (c p : Nat) : Prop :=
  p = c ∨ hasDescendant h c p

instance (h : Heap) (c p : Nat) : Decidable (inTreeOf h c p) := by
  unfold inTreeOf
  infer_instance

/--
`BaseNode::append_child(self: Pin<&mut Self>, child: Tree<T>)` from
`src/node.rs`, lifted to the state.  The guards model what the Rust type
system enforces: `child` is an owned `Tree` (`c ∈ s.roots`), the
receiver `p` is a live node, and `p` is not inside the consumed tree.
The body mirrors the source: set `child.root.parent = self`, push the
root onto `self.children`; the consumed `Tree` value is gone
(`s.roots.erase c`).
-/
def appendChild (s : TState) (p c : Nat) : Option TState :=
  if c ∈ s.roots ∧ (s.heap.find p).isSome ∧ ¬ inTreeOf s.heap c p then
    let h1 := s.heap.upd c fun n => { n with parent := some p }
    let h2 := h1.upd p fun n => { n with children := n.children ++ [c] }
    some ⟨h2, s.roots.erase c⟩
  else none

/--
`BaseNode::insert_child(self, child, index)` from `src/node.rs`, lifted
to the state.  Identical to `appendChild` except that the child is
placed with `Vec::insert(index, ..)`, which panics when
`index > len` — the final `none` models that panic.
-/
def insertChild (s : TState) (p c idx : Nat) : Option TState :=
  if c ∈ s.roots ∧ (s.heap.find p).isSome ∧ ¬ inTreeOf s.heap c p then
    match s.heap.find p with
    | none => none
    | some pn =>
      if idx ≤ pn.children.length then
        let h1 := s.heap.upd c fun n => { n with parent := some p }
        let h2 := h1.upd p fun n => { n with children := n.children.insertIdx idx c }
        some ⟨h2, s.roots.erase c⟩
      else none
  else none

/-- Outcome of running `BaseNode::insert_child` on its own (no
tree-level plumbing): either the updated heap, or a panic raised by
`Vec::insert` on an out-of-range index. -/
inductive InsertOutcome where
  | done (h : Heap)
  | panicked
deriving DecidableEq, Repr

/-- `BaseNode::insert_child` in isolation: set the child root's parent
pointer, then `self.children.insert(index, child.root)`.  `Vec::insert`
panics iff `index > self.children.len()`. -/
def insertChildNode (h : Heap) (p c idx : Nat) : InsertOutcome :=
  let h1 := h.upd c fun n => { n with parent := some p }
  match h1.find p with
  | none => .panicked
  | some pn =>
    if idx ≤ pn.children.length then
      .done (h1.upd p fun n => { n with children := n.children.insertIdx idx c })
    else .panicked

/-!
## The reference-counted variant (`src/rc/node.rs`)

`Node<T>` there stores a `Weak` back-pointer; `Node::parent` upgrades
it, yielding `None` either when there is no parent or when the parent
allocation has been dropped (its address is no longer in the heap).
-/

/-- `Node::parent` of the rc variant: `Weak::upgrade` fails when the
parent is not live. -/
def rcParent (h : Heap) (i : Nat) : Option Nat :=
  (h.find i).bind fun n =>
    n.parent.bind fun p => if (h.find p).isSome then some p else none

/-- `Node::detach` of the rc variant: `let parent = self.parent()?`,
find `self` in `parent.children` (the `expect` panic is the middle
`none`), remove it, clear the parent pointer, return `self` as a tree
root.  No reachability check against any root is performed. -/
def rcDetach (h : Heap) (i : Nat) : Option (Nat × Heap) :=
  match rcParent h i with
  | none => none
  | some p =>
    match h.find p with
    | none => none
    | some pn =>
      match pn.children.findIdx? (· = i) with
      | none => none
      | some idx =>
        let h1 := h.upd p fun n => { n with children := n.children.eraseIdx idx }
        let h2 := h1.upd i fun n => { n with parent := none }
        some (i, h2)

/-!
## Rose trees: the read-only view used by the iterators and by `PartialEq`

`IterBFS`/`IterDFS` (`src/iter.rs`, `src/rc/iter.rs`) and the equality
implementations only ever use `content` and the ordered `children()`
view of a node, never parent pointers or mutation, so they are embedded
over a purely functional rose tree.
-/

inductive RTree where
  | mk (content : Nat) (children : List RTree)
deriving Repr

def RTree.content : RTree → Nat
  | .mk c _ => c

def RTree.children : RTree → List RTree
  | .mk _ cs => cs

/-- Size of a subtree (number of nodes); used as the termination measure
of the iterator loops. -/
def RTree.size : RTree → Nat
  | .mk _ cs => 1 + (cs.attach.map fun x => RTree.size x.1).sum
decreasing_by
  have := List.sizeOf_lt_of_mem x.2
  simp only [RTree.mk.sizeOf_spec]
  omega

/-- Total size of a queue/stack of pending subtrees. -/
def sizeQ (q : List RTree) : Nat :=
  (q.map RTree.size).sum

theorem RTree.size_mk (c : Nat) (cs : List RTree) :
    RTree.size (.mk c cs) = 1 + sizeQ cs := by
  rw [RTree.size, sizeQ]
  congr 1
  rw [List.attach_map_coe]

theorem sizeQ_nil : sizeQ [] = 0 := rfl

theorem sizeQ_cons (t : RTree) (q : List RTree) :
    sizeQ (t :: q) = t.size + sizeQ q := by
  simp [sizeQ]

theorem sizeQ_append (a b : List RTree) :
    sizeQ (a ++ b) = sizeQ a + sizeQ b := by
  simp [sizeQ]

theorem RTree.size_pos (t : RTree) : 0 < t.size := by
  obtain ⟨c, cs⟩ := t
  rw [RTree.size_mk]
  omega

theorem sizeQ_children_lt (t : RTree) (q : List RTree) :
    sizeQ (q ++ t.children) < sizeQ (t :: q) := by
  obtain ⟨c, cs⟩ := t
  rw [sizeQ_append, sizeQ_cons, RTree.size_mk]
  simp only [RTree.children]
  omega

theorem sizeQ_children_lt' (t : RTree) (q : List RTree) :
    sizeQ (t.children ++ q) < sizeQ (t :: q) := by
  obtain ⟨c, cs⟩ := t
  rw [sizeQ_append, sizeQ_cons, RTree.size_mk]
  simp only [RTree.children]
  omega

/--
`impl Iterator for IterBFS` (`next`, `src/iter.rs` lines 22-34): pop the
front of the FIFO queue, enqueue the popped node's children in order.
`bfs q` is the whole sequence the iterator yields starting from pending
queue `q`; the iterator for a tree starts from the singleton queue
holding the root.
-/
def bfs : List RTree → List RTree
  | [] => []
  | t :: q => t :: bfs (q ++ t.children)
termination_by q => sizeQ q
decreasing_by
  exact sizeQ_children_lt t q

/--
`impl Iterator for IterDFS` (`next`, `src/iter.rs` lines 52-65): pop the
top of the LIFO stack, push the popped node's children in reverse order
(so the first child is popped next).  With the stack's top at the list
head, pushing `children.rev()` one by one leaves `children ++ rest`.
-/
def dfs : List RTree → List RTree
  | [] => []
  | t :: rest => t :: dfs (t.children ++ rest)
termination_by q => sizeQ q
decreasing_by
  exact sizeQ_children_lt' _ _

/-- All nodes of a subtree in recursive pre-order (the node, then the
nodes of each child subtree in order).  This is the specification-side
enumeration of "each node of the subtree". -/
def allNodes : RTree → List RTree
  | .mk c cs => .mk c cs :: (cs.attach.map fun x => allNodes x.1).flatten
decreasing_by
  have := List.sizeOf_lt_of_mem x.2
  simp only [RTree.mk.sizeOf_spec]
  omega

/-- `allNodes` lifted to a list of pending subtrees. -/
def allNodesQ (q : List RTree) : List RTree :=
  (q.map allNodes).flatten

theorem allNodes_mk (c : Nat) (cs : List RTree) :
    allNodes (.mk c cs) = .mk c cs :: allNodesQ cs := by
  rw [allNodes, allNodesQ]
  congr 2
  rw [List.attach_map_coe]

theorem allNodesQ_nil : allNodesQ [] = [] := rfl

theorem allNodesQ_cons (t : RTree) (q : List RTree) :
    allNodesQ (t :: q) = allNodes t ++ allNodesQ q := by
  simp [allNodesQ]

theorem allNodesQ_append (a b : List RTree) :
    allNodesQ (a ++ b) = allNodesQ a ++ allNodesQ b := by
  simp [allNodesQ]

/-- The level-order enumeration: the whole pending queue, then — one
depth further down — all their children in queue order, and so on.  This
is the specification-side notion of "non-decreasing depth, ties resolved
by the parent's dequeue order and then left-to-right sibling order". -/
def levelOrder : List RTree → List RTree
  | [] => []
  | t :: q => (t :: q) ++ levelOrder ((t :: q).flatMap RTree.children)
termination_by q => sizeQ q
decreasing_by
  have h1 : ∀ l : List RTree, sizeQ (l.flatMap RTree.children) + l.length = sizeQ l := by
    intro l
    induction l with
    | nil => rfl
    | cons x xs ih =>
      obtain ⟨c, cs⟩ := x
      simp only [List.flatMap_cons, sizeQ_append, sizeQ_cons, List.length_cons, RTree.size_mk,
        RTree.children] at *
      omega
  have h2 := h1 (t :: q)
  simp only [List.length_cons] at h2
  omega

/-- The DFS iterator yields exactly the recursive pre-order: the pending
stack head first, then its first child's subtree fully, and so on. -/
theorem dfs_eq_allNodesQ (q : List RTree) : dfs q = allNodesQ q := by
  induction q using dfs.induct with
  | case1 => simp [dfs, allNodesQ]
  | case2 t rest ih =>
    obtain ⟨c, cs⟩ := t
    rw [dfs, ih, allNodesQ_append, allNodesQ_cons, allNodes_mk]
    simp [RTree.children]

/-- The BFS queue invariant: the iterator first yields everything
already in the queue, then continues from the queue of all their
children in order. -/
theorem bfs_append (l₁ : List RTree) : ∀ l₂ : List RTree,
    bfs (l₁ ++ l₂) = l₁ ++ bfs (l₂ ++ l₁.flatMap RTree.children) := by
  induction l₁ with
  | nil =>
    intro l₂
    simp
  | cons t l₁ ih =>
    intro l₂
    rw [List.cons_append, bfs, List.append_assoc, ih (l₂ ++ t.children)]
    simp [List.append_assoc]

theorem sizeQ_flatMap_children (l : List RTree) :
    sizeQ (l.flatMap RTree.children) + l.length = sizeQ l := by
  induction l with
  | nil => rfl
  | cons x xs ihx =>
    obtain ⟨c, cs⟩ := x
    simp only [List.flatMap_cons, sizeQ_append, sizeQ_cons, List.length_cons,
      RTree.size_mk, RTree.children] at *
    omega

/-- BFS yields the pending queue level by level. -/
theorem bfs_eq_levelOrder (q : List RTree) : bfs q = levelOrder q := by
  have H : ∀ n, ∀ q : List RTree, sizeQ q ≤ n → bfs q = levelOrder q := by
    intro n
    induction n with
    | zero =>
      intro q hq
      match q with
      | [] => simp [bfs, levelOrder]
      | t :: q =>
        exfalso
        have := RTree.size_pos t
        rw [sizeQ_cons] at hq
        omega
    | succ n ih =>
      intro q hq
      match q with
      | [] => simp [bfs, levelOrder]
      | t :: q =>
        have hstep : bfs (t :: q) = (t :: q) ++ bfs ((t :: q).flatMap RTree.children) := by
          have := bfs_append (t :: q) []
          simpa using this
        have hsz : sizeQ ((t :: q).flatMap RTree.children) ≤ n := by
          have := sizeQ_flatMap_children (t :: q)
          simp only [List.length_cons] at this
          omega
        rw [hstep, levelOrder, ih _ hsz]
  exact H (sizeQ q) q le_rfl

/-- BFS yields every node of every pending subtree exactly once (the
yield sequence is a permutation of the pre-order enumeration). -/
theorem bfs_perm_allNodesQ (q : List RTree) : (bfs q).Perm (allNodesQ q) := by
  have H : ∀ n, ∀ q : List RTree, sizeQ q ≤ n → (bfs q).Perm (allNodesQ q) := by
    intro n
    induction n with
    | zero =>
      intro q hq
      match q with
      | [] => simp [bfs, allNodesQ]
      | t :: q =>
        exfalso
        have := RTree.size_pos t
        rw [sizeQ_cons] at hq
        omega
    | succ n ih =>
      intro q hq
      match q with
      | [] => simp [bfs, allNodesQ]
      | t :: q =>
        rw [bfs]
        have hsz : sizeQ (q ++ t.children) ≤ n := by
          have := sizeQ_children_lt t q
          omega
        have hih := ih (q ++ t.children) hsz
        have h2 : allNodes t = t :: allNodesQ t.children := by
          obtain ⟨c, cs⟩ := t
          rw [allNodes_mk]
          simp [RTree.children]
        rw [allNodesQ_cons, h2, List.cons_append]
        refine List.Perm.cons t ?_
        refine hih.trans ?_
        rw [allNodesQ_append]
        exact List.perm_append_comm
  exact H (sizeQ q) q le_rfl

/-!
## Equality (`PartialEq`)

`impl<T: PartialEq> PartialEq for BaseNode<T>` (`src/node.rs` lines
416-420) compares `self.content == other.content` — nothing else.
`impl<T> PartialEq for Tree<T>` (`src/lib.rs` lines 162-167) forwards to
the roots.  The rc variant (`src/rc/node.rs`, `InnerNode`/`Node`) is
identical.
-/

/-- `BaseNode::eq`: content comparison only. -/
def baseNodeEq (a b : RTree) : Bool :=
  a.content == b.content

/-- `Tree::eq`: `self.root().eq(other.root())`. -/
def treeEq (a b : RTree) : Bool :=
  baseNodeEq a b

/-- Modelled from the spec words (§4.1 "Structural equality"): equal
content and children pairwise equal by the same rule, recursively.  This
is the specification-side notion that `treeEq` is compared against. -/
def structEq : RTree → RTree → Bool
  | .mk c cs, .mk d ds =>
    c == d && cs.length == ds.length &&
      (cs.zip ds).attach.all fun x => structEq x.1.1 x.1.2
termination_by a _ => sizeOf a
decreasing_by
  obtain ⟨⟨t1, t2⟩, hmem⟩ := x
  have hm := (List.of_mem_zip hmem).1
  have := List.sizeOf_lt_of_mem hm
  simp only [RTree.mk.sizeOf_spec] at *
  omega

/-!
## Concrete example tree

Root `a` with children `b, c`, where `b` has children `d, e`
(contents `a ↦ 0, b ↦ 1, c ↦ 2, d ↦ 3, e ↦ 4`).
-/

def exampleTree : RTree :=
  .mk 0 [.mk 1 [.mk 3 [], .mk 4 []], .mk 2 []]

/-- C7: `iter_bfs` yields each node of the subtree rooted at the start
node exactly once (a permutation of the node enumeration), in
non-decreasing-depth order with ties resolved by the parent's dequeue
order and then left-to-right sibling order (the level-order
concatenation); concretely, for root `a` with children `b, c` and `b`'s
children `d, e`, the yielded order is `[a, b, c, d, e]`, after which the
iterator is exhausted. -/
theorem iter_bfs_spec :
    (∀ t : RTree, (bfs [t]).Perm (allNodes t) ∧ bfs [t] = levelOrder [t]) ∧
    (bfs [exampleTree]).map RTree.content = [0, 1, 2, 3, 4] := by
  constructor
  · intro t
    refine ⟨?_, bfs_eq_levelOrder [t]⟩
    have h := bfs_perm_allNodesQ [t]
    simpa [allNodesQ_cons, allNodesQ_nil] using h
  · simp [exampleTree, bfs, RTree.children, RTree.content]

/-- C8: `iter_dfs` yields each node of the subtree rooted at the start
node exactly once, in standard recursive pre-order (parent, then the
first child's subtree fully, then the next sibling's subtree, …),
via the LIFO stack with reverse-order pushes embodied in `dfs`;
concretely, for root `a` with children `b, c` and `b`'s children `d, e`,
the yielded order is `[a, b, d, e, c]`, after which the iterator is
exhausted. -/
theorem iter_dfs_spec :
    (∀ t : RTree, dfs [t] = allNodes t) ∧
    (dfs [exampleTree]).map RTree.content = [0, 1, 3, 4, 2] := by
  constructor
  · intro t
    have h := dfs_eq_allNodesQ [t]
    simpa [allNodesQ_cons, allNodesQ_nil] using h
  · simp [exampleTree, dfs, RTree.children, RTree.content]

/-- C5 counterexample: two trees whose roots have equal content (`5`)
but differently-shaped children sequences (no children vs one child)
nevertheless compare equal under `Tree::eq`, which contradicts the
claimed structural equality. -/
theorem treeEq_counterexample :
    treeEq (.mk 5 []) (.mk 5 [.mk 7 []]) = true ∧
    structEq (.mk 5 []) (.mk 5 [.mk 7 []]) = false := by
  refine ⟨rfl, ?_⟩
  simp [structEq]

/-- C5 (amended): two Trees compare equal iff their roots' contents are
equal — children are ignored entirely.  Structural equality (the spec's
notion) still implies Tree equality, but not conversely. -/
theorem treeEq_content_only :
    (∀ a b : RTree, treeEq a b = true ↔ a.content = b.content) ∧
    (∀ a b : RTree, structEq a b = true → treeEq a b = true) := by
  constructor
  · intro a b
    simp [treeEq, baseNodeEq]
  · intro a b h
    obtain ⟨c, cs⟩ := a
    obtain ⟨d, ds⟩ := b
    rw [structEq] at h
    simp only [Bool.and_eq_true, beq_iff_eq] at h
    simp [treeEq, baseNodeEq, RTree.content, h.1.1]

/-- Witness for the hypothesis-bearing part of `treeEq_content_only`:
at two concrete structurally equal trees, `Tree::eq` holds. -/
theorem treeEq_content_only_witness :
    structEq (.mk 5 []) (.mk 5 []) = true ∧ treeEq (.mk 5 []) (.mk 5 []) = true :=
  ⟨by simp [structEq], treeEq_content_only.2 _ _ (by simp [structEq])⟩

/-!
## Well-formedness

The invariants that every heap reachable through the public API
satisfies (§3 of the spec).  All conditions are phrased over the heap
entries, so that they are decidable on concrete states; the absence of
cycles is witnessed by a rank function that strictly decreases along
parent pointers.
-/

/-- The children list of the node at `i` (empty if `i` is dead). -/
def childrenOf (h : Heap) (i : Nat) : List Nat :=
  ((h.find i).map BNode.children).getD []

theorem mem_childrenOf_iff {h : Heap} {i c : Nat} :
    c ∈ childrenOf h i ↔ ∃ m, h.find i = some m ∧ c ∈ m.children := by
  unfold childrenOf
  cases hf : h.find i <;> simp [hf]

/-- Heap-level well-formedness. -/
structure WFHeap (h : Heap) : Prop where
  keys_nodup : (h.map Prod.fst).Nodup
  child_parent : ∀ e ∈ h, ∀ c ∈ e.2.children, h.parentOf c = some e.1
  parent_child : ∀ e ∈ h, ∀ p ∈ e.2.parent, e.1 ∈ childrenOf h p
  children_nodup : ∀ e ∈ h, e.2.children.Nodup
  rank_lt : ∃ rank : Nat → Nat, ∀ e ∈ h, ∀ p ∈ e.2.parent, rank p < rank e.1

/-- State-level well-formedness: heap well-formedness plus the roots
list being exactly the parentless live nodes. -/
structure WF (s : TState) : Prop where
  heapWF : WFHeap s.heap
  roots_nodup : s.roots.Nodup
  roots_live : ∀ r ∈ s.roots, (s.heap.find r).isSome
  roots_iff : ∀ e ∈ s.heap, (e.2.parent = none ↔ e.1 ∈ s.roots)

theorem WFHeap.find_child_parent {h : Heap} (W : WFHeap h) {i c : Nat} {n : BNode}
    (hf : h.find i = some n) (hc : c ∈ n.children) : h.parentOf c = some i :=
  W.child_parent (i, n) (Heap.find_mem hf) c hc

theorem WFHeap.find_parent_child {h : Heap} (W : WFHeap h) {i p : Nat} {n : BNode}
    (hf : h.find i = some n) (hp : n.parent = some p) :
    ∃ m, h.find p = some m ∧ i ∈ m.children :=
  mem_childrenOf_iff.mp (W.parent_child (i, n) (Heap.find_mem hf) p hp)

theorem WFHeap.find_children_nodup {h : Heap} (W : WFHeap h) {i : Nat} {n : BNode}
    (hf : h.find i = some n) : n.children.Nodup :=
  W.children_nodup (i, n) (Heap.find_mem hf)

theorem parentOf_eq_some_iff {h : Heap} {i p : Nat} :
    h.parentOf i = some p ↔ ∃ n, h.find i = some n ∧ n.parent = some p := by
  unfold Heap.parentOf
  cases hf : h.find i <;> simp [hf]

theorem parentOf_eq_none_of_dead {h : Heap} {i : Nat}
    (hf : h.find i = none) : h.parentOf i = none := by
  unfold Heap.parentOf
  simp [hf]

theorem WFHeap.parent_live {h : Heap} (W : WFHeap h) {i p : Nat}
    (hp : h.parentOf i = some p) : (h.find p).isSome := by
  obtain ⟨n, hf, hpar⟩ := parentOf_eq_some_iff.mp hp
  obtain ⟨m, hm, _⟩ := W.find_parent_child hf hpar
  simp [hm]

theorem WFHeap.parentOf_rank {h : Heap} {rank : Nat → Nat}
    (hrank : ∀ e ∈ h, ∀ p ∈ e.2.parent, rank p < rank e.1) {i p : Nat}
    (hp : h.parentOf i = some p) : rank p < rank i := by
  obtain ⟨n, hf, hpar⟩ := parentOf_eq_some_iff.mp hp
  exact hrank (i, n) (Heap.find_mem hf) p (by simp [hpar])

/-! ### Properties of the ancestor walk -/

theorem ancWalk_live {h : Heap} (W : WFHeap h) :
    ∀ fuel i x, x ∈ ancWalk h fuel i → (h.find x).isSome := by
  intro fuel
  induction fuel with
  | zero => intro i x hx; simp [ancWalk] at hx
  | succ fuel ih =>
    intro i x hx
    rw [ancWalk] at hx
    cases hp : h.parentOf i with
    | none => simp [hp] at hx
    | some p =>
      rw [hp] at hx
      rcases List.mem_cons.mp hx with rfl | hx
      · exact W.parent_live hp
      · exact ih p x hx

theorem ancWalk_rank {h : Heap} {rank : Nat → Nat}
    (hrank : ∀ e ∈ h, ∀ p ∈ e.2.parent, rank p < rank e.1) :
    ∀ fuel i x, x ∈ ancWalk h fuel i → rank x < rank i := by
  intro fuel
  induction fuel with
  | zero => intro i x hx; simp [ancWalk] at hx
  | succ fuel ih =>
    intro i x hx
    rw [ancWalk] at hx
    cases hp : h.parentOf i with
    | none => simp [hp] at hx
    | some p =>
      rw [hp] at hx
      rcases List.mem_cons.mp hx with rfl | hx
      · exact WFHeap.parentOf_rank hrank hp
      · exact Nat.lt_trans (ih p x hx) (WFHeap.parentOf_rank hrank hp)

theorem ancWalk_nodup {h : Heap} {rank : Nat → Nat}
    (hrank : ∀ e ∈ h, ∀ p ∈ e.2.parent, rank p < rank e.1) :
    ∀ fuel i, (ancWalk h fuel i).Nodup := by
  intro fuel
  induction fuel with
  | zero => intro i; simp [ancWalk]
  | succ fuel ih =>
    intro i
    rw [ancWalk]
    cases hp : h.parentOf i with
    | none => simp
    | some p =>
      refine List.nodup_cons.mpr ⟨?_, ih p⟩
      intro hmem
      exact absurd (ancWalk_rank hrank fuel p p hmem) (lt_irrefl _)

theorem ancWalk_length_lt {h : Heap} (W : WFHeap h) {i p : Nat}
    (hp : h.parentOf i = some p) (fuel : Nat) :
    (ancWalk h fuel p).length < h.length := by
  obtain ⟨rank, hrank⟩ := W.rank_lt
  have hnd : (p :: ancWalk h fuel p).Nodup := by
    refine List.nodup_cons.mpr ⟨?_, ancWalk_nodup hrank fuel p⟩
    intro hmem
    exact absurd (ancWalk_rank hrank fuel p p hmem) (lt_irrefl _)
  have hsub : (p :: ancWalk h fuel p) ⊆ h.map Prod.fst := by
    intro x hx
    rcases List.mem_cons.mp hx with rfl | hx
    · exact Heap.find_isSome_iff_mem_keys.mp (W.parent_live hp)
    · exact Heap.find_isSome_iff_mem_keys.mp (ancWalk_live W fuel p x hx)
  have hlen := (List.subperm_of_subset hnd hsub).length_le
  simp only [List.length_cons, List.length_map] at hlen
  omega

theorem ancWalk_stable {h : Heap} :
    ∀ fuel fuel' i, (ancWalk h fuel i).length < fuel → fuel ≤ fuel' →
      ancWalk h fuel' i = ancWalk h fuel i := by
  intro fuel
  induction fuel with
  | zero => intro fuel' i hlt; omega
  | succ fuel ih =>
    intro fuel' i hlt hle
    match fuel', hle with
    | fuel' + 1, _ =>
      rw [ancWalk, ancWalk]
      cases hp : h.parentOf i with
      | none => rfl
      | some p =>
        rw [ancWalk, hp] at hlt
        simp only [List.length_cons] at hlt
        show p :: ancWalk h fuel' p = p :: ancWalk h fuel p
        rw [ih fuel' p (by omega) (by omega)]

theorem ancestors_step {h : Heap} (W : WFHeap h) {i p : Nat}
    (hp : h.parentOf i = some p) :
    h.ancestors i = p :: h.ancestors p := by
  unfold Heap.ancestors
  conv_lhs => rw [ancWalk, hp]
  rw [ancWalk_stable h.length (h.length + 1) p (ancWalk_length_lt W hp h.length) (by omega)]

theorem ancestors_of_parent_none {h : Heap} {i : Nat}
    (hp : h.parentOf i = none) : h.ancestors i = [] := by
  unfold Heap.ancestors
  rw [ancWalk, hp]

/-! ### Descendants: the specification-side notion

The spec speaks of "a live descendant of this Tree's root": a node
reachable from the root by one or more downward `children` steps.  The
code checks the same thing by walking *up* the parent chain; the
equivalence of the two is `mem_ancestors_iff_strictDesc`.
-/

/-- One downward step: `c` is one of the children of the live node `p`. -/
def ChildStep (h : Heap) (p c : Nat) : Prop :=
  ∃ n, h.find p = some n ∧ c ∈ n.children

/-- `i` is a strict descendant of `a`: reachable by one or more
children steps. -/
def StrictDesc (h : Heap) (a i : Nat) : Prop :=
  Relation.TransGen (ChildStep h) a i

theorem childStep_iff_parentOf {h : Heap} (W : WFHeap h) {p c : Nat} :
    ChildStep h p c ↔ h.parentOf c = some p := by
  constructor
  · rintro ⟨n, hf, hc⟩
    exact W.find_child_parent hf hc
  · intro hp
    obtain ⟨n, hf, hpar⟩ := parentOf_eq_some_iff.mp hp
    obtain ⟨m, hm, hmem⟩ := W.find_parent_child hf hpar
    exact ⟨m, hm, hmem⟩

theorem strictDesc_rank {h : Heap} {rank : Nat → Nat}
    (hrank : ∀ e ∈ h, ∀ p ∈ e.2.parent, rank p < rank e.1) (W : WFHeap h)
    {a i : Nat} (hd : StrictDesc h a i) : rank a < rank i := by
  induction hd with
  | single hstep =>
    exact WFHeap.parentOf_rank hrank ((childStep_iff_parentOf W).mp hstep)
  | tail _ hstep ih =>
    exact Nat.lt_trans ih (WFHeap.parentOf_rank hrank ((childStep_iff_parentOf W).mp hstep))

/-- Well-formed heaps have no structural cycles. -/
theorem no_strictDesc_self {h : Heap} (W : WFHeap h) (i : Nat) :
    ¬ StrictDesc h i i := by
  intro hd
  obtain ⟨rank, hrank⟩ := W.rank_lt
  exact absurd (strictDesc_rank hrank W hd) (lt_irrefl _)

/-- The walk up the parent chain finds `a` iff `i` is a strict
descendant of `a` — upward search and downward reachability agree on
well-formed heaps. -/
theorem mem_ancestors_iff_strictDesc {h : Heap} (W : WFHeap h) {a i : Nat} :
    a ∈ h.ancestors i ↔ StrictDesc h a i := by
  obtain ⟨rank, hrank⟩ := W.rank_lt
  constructor
  · have H : ∀ m, ∀ i, rank i ≤ m → a ∈ h.ancestors i → StrictDesc h a i := by
      intro m
      induction m with
      | zero =>
        intro i hri hmem
        cases hp : h.parentOf i with
        | none => rw [ancestors_of_parent_none hp] at hmem; simp at hmem
        | some p =>
          exact absurd (WFHeap.parentOf_rank hrank hp) (by omega)
      | succ m ih =>
        intro i hri hmem
        cases hp : h.parentOf i with
        | none => rw [ancestors_of_parent_none hp] at hmem; simp at hmem
        | some p =>
          rw [ancestors_step W hp] at hmem
          have hpi : ChildStep h p i := (childStep_iff_parentOf W).mpr hp
          rcases List.mem_cons.mp hmem with rfl | hmem
          · exact Relation.TransGen.single hpi
          · have hrp : rank p ≤ m := by
              have := WFHeap.parentOf_rank hrank hp
              omega
            exact (ih p hrp hmem).tail hpi
    exact H (rank i) i le_rfl
  · intro hd
    induction hd with
    | single hstep =>
      have hp := (childStep_iff_parentOf W).mp hstep
      rw [ancestors_step W hp]
      exact List.mem_cons_self _ _
    | tail _ hstep ih =>
      rename_i b c _
      have hp := (childStep_iff_parentOf W).mp hstep
      rw [ancestors_step W hp]
      exact List.mem_cons_of_mem _ ih

/-- Along one ancestor chain there is at most one parentless node (the
chain terminates at its unique root). -/
theorem ancestors_parentless_unique {h : Heap} (W : WFHeap h) {i : Nat} :
    ∀ a ∈ h.ancestors i, h.parentOf a = none →
      ∀ b ∈ h.ancestors i, h.parentOf b = none → b = a := by
  obtain ⟨rank, hrank⟩ := W.rank_lt
  have H : ∀ m, ∀ i, rank i ≤ m →
      ∀ a ∈ h.ancestors i, h.parentOf a = none →
        ∀ b ∈ h.ancestors i, h.parentOf b = none → b = a := by
    intro m
    induction m with
    | zero =>
      intro i hri a ha hpa b hb hpb
      cases hp : h.parentOf i with
      | none => rw [ancestors_of_parent_none hp] at ha; simp at ha
      | some p => exact absurd (WFHeap.parentOf_rank hrank hp) (by omega)
    | succ m ih =>
      intro i hri a ha hpa b hb hpb
      cases hp : h.parentOf i with
      | none => rw [ancestors_of_parent_none hp] at ha; simp at ha
      | some p =>
        have hrp : rank p ≤ m := by
          have := WFHeap.parentOf_rank hrank hp
          omega
        rw [ancestors_step W hp] at ha hb
        rcases List.mem_cons.mp ha with rfl | ha
        · rcases List.mem_cons.mp hb with rfl | hb
          · rfl
          · rw [ancestors_of_parent_none hpa] at hb
            simp at hb
        · rcases List.mem_cons.mp hb with rfl | hb
          · rw [ancestors_of_parent_none hpb] at ha
            simp at ha
          · exact ih p hrp a ha hpa b hb hpb
  exact H (rank i) i le_rfl

/-! ### Unpacking a successful `detach_descendant` -/

theorem findIdx_eq_getElem {l : List Nat} {X idx : Nat}
    (hf : l.findIdx? (· = X) = some idx) :
    idx < l.length ∧ l[idx]? = some X := by
  rw [List.findIdx?_eq_some_iff_getElem] at hf
  obtain ⟨hlt, hp, _⟩ := hf
  refine ⟨hlt, ?_⟩
  rw [List.getElem?_eq_some_iff]
  exact ⟨hlt, by simpa using hp⟩

theorem eraseIdx_eq_erase_of_nodup {l : List Nat} {X idx : Nat}
    (hnd : l.Nodup) (hlt : idx < l.length) (hget : l[idx]? = some X) :
    l.eraseIdx idx = l.erase X := by
  have hx : l[idx] = X := by
    rw [List.getElem?_eq_some_iff] at hget
    exact hget.2
  rw [← hx, hnd.erase_getElem idx hlt]

/-- All the data of a successful `Tree::detach_descendant` call. -/
theorem detach_unpack {s : TState} {r X x : Nat} {s' : TState}
    (hdet : detachDescendant s r X = some (x, s')) :
    ∃ p pn idx,
      r ∈ s.roots ∧ isDescendant s.heap r X ∧
      s.heap.parentOf X = some p ∧
      s.heap.find p = some pn ∧
      pn.children.findIdx? (· = X) = some idx ∧
      idx < pn.children.length ∧ pn.children[idx]? = some X ∧
      x = X ∧
      s'.heap = (s.heap.upd p fun n => { n with children := n.children.eraseIdx idx }).upd X
        (fun n => { n with parent := none }) ∧
      s'.roots = X :: s.roots := by
  unfold detachDescendant at hdet
  split at hdet
  case isTrue hr =>
    split at hdet
    case isTrue hd =>
      split at hdet
      case h_1 => cases hdet
      case h_2 p hp =>
        split at hdet
        case h_1 => cases hdet
        case h_2 pn hfp =>
          split at hdet
          case h_1 => cases hdet
          case h_2 idx hidx =>
            split at hdet
            case h_1 => cases hdet
            case h_2 y hget0 =>
              obtain ⟨hlt, hget⟩ := findIdx_eq_getElem hidx
              have hyX : y = X := by
                rw [hget0] at hget
                exact (Option.some.injEq _ _ ▸ hget)
              subst hyX
              simp only [Option.some.injEq, Prod.mk.injEq] at hdet
              obtain ⟨hx, hs'⟩ := hdet
              refine ⟨p, pn, idx, hr, hd, hp, hfp, hidx, hlt, hget, hx.symm, ?_, ?_⟩
              · rw [← hs']
              · rw [← hs']
    case isFalse => cases hdet
  case isFalse => cases hdet

/-- Entry-quantified well-formedness from find-quantified conditions. -/
theorem wfHeap_of_find {h : Heap}
    (hk : (h.map Prod.fst).Nodup)
    (cp : ∀ i n, h.find i = some n → ∀ c ∈ n.children, h.parentOf c = some i)
    (pc : ∀ i n p, h.find i = some n → n.parent = some p → i ∈ childrenOf h p)
    (cn : ∀ i n, h.find i = some n → n.children.Nodup)
    (rk : ∃ rank : Nat → Nat, ∀ i n p, h.find i = some n → n.parent = some p →
      rank p < rank i) :
    WFHeap h := by
  refine ⟨hk, ?_, ?_, ?_, ?_⟩
  · intro e he c hc
    exact cp e.1 e.2 (Heap.mem_find_of_nodup hk he) c hc
  · intro e he p hp
    exact pc e.1 e.2 p (Heap.mem_find_of_nodup hk he) (Option.mem_def.mp hp)
  · intro e he
    exact cn e.1 e.2 (Heap.mem_find_of_nodup hk he)
  · obtain ⟨rank, hrank⟩ := rk
    exact ⟨rank, fun e he p hp =>
      hrank e.1 e.2 p (Heap.mem_find_of_nodup hk he) (Option.mem_def.mp hp)⟩

theorem WFHeap.rank_lt_find {h : Heap} (W : WFHeap h) :
    ∃ rank : Nat → Nat, ∀ i n p, h.find i = some n → n.parent = some p →
      rank p < rank i := by
  obtain ⟨rank, hrank⟩ := W.rank_lt
  exact ⟨rank, fun i n p hf hp => hrank (i, n) (Heap.find_mem hf) p (Option.mem_def.mpr hp)⟩

/-- Heap-level effect of a successful `detach_descendant` on a
well-formed state: the detached node's parent pointer is cleared, it is
erased from its former parent's children, everything else is untouched,
and the detached node becomes a root. -/
theorem detach_effect {s : TState} {r X x : Nat} {s' : TState} (W : WF s)
    (hdet : detachDescendant s r X = some (x, s')) :
    ∃ p pn xn,
      r ∈ s.roots ∧ isDescendant s.heap r X ∧
      s.heap.find X = some xn ∧ xn.parent = some p ∧ X ≠ p ∧
      s.heap.find p = some pn ∧ X ∈ pn.children ∧
      (∀ j, s'.heap.find j =
        if j = X then some { xn with parent := none }
        else if j = p then some { pn with children := pn.children.erase X }
        else s.heap.find j) ∧
      s'.heap.map Prod.fst = s.heap.map Prod.fst ∧
      s'.roots = X :: s.roots ∧ x = X := by
  obtain ⟨p, pn, idx, hr, hd, hp, hfp, hidx, hlt, hget, hxX, hheap, hroots⟩ :=
    detach_unpack hdet
  obtain ⟨xn, hfX, hXpar⟩ := parentOf_eq_some_iff.mp hp
  have Wh := W.heapWF
  have hXp : X ≠ p := by
    obtain ⟨rank, hrank⟩ := Wh.rank_lt
    have hlt2 := WFHeap.parentOf_rank hrank hp
    intro he
    rw [he] at hlt2
    exact absurd hlt2 (lt_irrefl _)
  have hnd := Wh.find_children_nodup hfp
  have herase : pn.children.eraseIdx idx = pn.children.erase X :=
    eraseIdx_eq_erase_of_nodup hnd hlt hget
  have hmem : X ∈ pn.children := by
    rw [List.getElem?_eq_some_iff] at hget
    obtain ⟨hl, hx⟩ := hget
    exact hx ▸ List.getElem_mem hl
  refine ⟨p, pn, xn, hr, hd, hfX, hXpar, hXp, hfp, hmem, ?_, ?_, hroots, hxX⟩
  · intro j
    rw [hheap, Heap.find_upd, Heap.find_upd]
    by_cases hjX : j = X
    · subst hjX
      simp [hXp, hfX]
    · by_cases hjp : j = p
      · subst hjp
        simp [hjX, hfp, herase]
      · simp [hjX, hjp]
  · rw [hheap]
    simp

/-- A successful `detach_descendant` preserves well-formedness. -/
theorem detach_preserves_WF {s : TState} {r X x : Nat} {s' : TState} (W : WF s)
    (hdet : detachDescendant s r X = some (x, s')) : WF s' := by
  obtain ⟨p, pn, xn, hr, hd, hfX, hXpar, hXp, hfp, hmem, hfind, hkeys, hroots, hxX⟩ :=
    detach_effect W hdet
  have Wh := W.heapWF
  have hpar' : ∀ c, s'.heap.parentOf c =
      if c = X then none else s.heap.parentOf c := by
    intro c
    unfold Heap.parentOf
    rw [hfind c]
    by_cases hcX : c = X
    · rw [if_pos hcX, if_pos hcX]
      rfl
    · rw [if_neg hcX, if_neg hcX]
      by_cases hcp : c = p
      · rw [if_pos hcp, hcp, hfp]
        rfl
      · rw [if_neg hcp]
  have hch' : ∀ q, childrenOf s'.heap q =
      if q = p then pn.children.erase X else childrenOf s.heap q := by
    intro q
    unfold childrenOf
    rw [hfind q]
    by_cases hqX : q = X
    · rw [if_pos hqX, if_neg (hqX ▸ hXp), hqX, hfX]
      rfl
    · rw [if_neg hqX]
      by_cases hqp : q = p
      · rw [if_pos hqp, if_pos hqp]
        rfl
      · rw [if_neg hqp, if_neg hqp]
  have hkeys' : (s'.heap.map Prod.fst).Nodup := by
    rw [hkeys]
    exact Wh.keys_nodup
  have hpX : s.heap.parentOf X = some p := by
    rw [parentOf_eq_some_iff]
    exact ⟨xn, hfX, hXpar⟩
  -- any node whose parent pointer is `some q` with `q ≠ p` differs from `X`
  have hnotX : ∀ c q, s.heap.parentOf c = some q → q ≠ p → c ≠ X := by
    intro c q hcq hqp hcc
    rw [hcc, hpX] at hcq
    injection hcq with he
    exact hqp he.symm
  have hWh' : WFHeap s'.heap := by
    refine wfHeap_of_find hkeys' ?_ ?_ ?_ ?_
    · -- child_parent
      intro j n hj c hc
      rw [hfind j] at hj
      by_cases hjX : j = X
      · rw [if_pos hjX] at hj
        injection hj with hj
        subst hj
        have hc2 : c ∈ xn.children := hc
        have hcold := Wh.find_child_parent hfX hc2
        have hcX : c ≠ X := by
          intro hcc
          rw [hcc, hpX] at hcold
          injection hcold with he
          exact hXp he.symm
        rw [hpar' c, if_neg hcX, hjX]
        exact hcold
      · rw [if_neg hjX] at hj
        by_cases hjp : j = p
        · rw [if_pos hjp] at hj
          injection hj with hj
          subst hj
          have hc2 : c ∈ pn.children.erase X := hc
          have hcX : c ≠ X := by
            intro hcc
            exact (Wh.find_children_nodup hfp).not_mem_erase (hcc ▸ hc2)
          have hcold := Wh.find_child_parent hfp (List.mem_of_mem_erase hc2)
          rw [hpar' c, if_neg hcX, hjp]
          exact hcold
        · rw [if_neg hjp] at hj
          have hcold := Wh.find_child_parent hj hc
          have hcX : c ≠ X := hnotX c j hcold hjp
          rw [hpar' c, if_neg hcX]
          exact hcold
    · -- parent_child
      intro j n q hj hq
      rw [hfind j] at hj
      by_cases hjX : j = X
      · rw [if_pos hjX] at hj
        injection hj with hj
        subst hj
        have hq2 : (none : Option Nat) = some q := hq
        cases hq2
      · rw [if_neg hjX] at hj
        by_cases hjp : j = p
        · rw [if_pos hjp] at hj
          injection hj with hj
          subst hj
          have hq2 : pn.parent = some q := hq
          obtain ⟨m, hm, hmm⟩ := Wh.find_parent_child hfp hq2
          have hqp : q ≠ p := by
            intro hqq
            rw [hqq] at hm
            exact no_strictDesc_self Wh p (Relation.TransGen.single ⟨m, hm, hmm⟩)
          rw [hch' q, if_neg hqp, hjp]
          exact mem_childrenOf_iff.mpr ⟨m, hm, hmm⟩
        · rw [if_neg hjp] at hj
          obtain ⟨m, hm, hmm⟩ := Wh.find_parent_child hj hq
          rw [hch' q]
          by_cases hqp : q = p
          · rw [if_pos hqp]
            rw [hqp, hfp] at hm
            injection hm with hm
            subst hm
            exact (List.mem_erase_of_ne hjX).mpr hmm
          · rw [if_neg hqp]
            exact mem_childrenOf_iff.mpr ⟨m, hm, hmm⟩
    · -- children_nodup
      intro j n hj
      rw [hfind j] at hj
      by_cases hjX : j = X
      · rw [if_pos hjX] at hj
        injection hj with hj
        subst hj
        show xn.children.Nodup
        exact Wh.find_children_nodup hfX
      · rw [if_neg hjX] at hj
        by_cases hjp : j = p
        · rw [if_pos hjp] at hj
          injection hj with hj
          subst hj
          show (pn.children.erase X).Nodup
          exact (Wh.find_children_nodup hfp).sublist (List.erase_sublist _ _)
        · rw [if_neg hjp] at hj
          exact Wh.find_children_nodup hj
    · -- rank
      obtain ⟨rank, hrank⟩ := Wh.rank_lt_find
      refine ⟨rank, ?_⟩
      intro j n q hj hq
      rw [hfind j] at hj
      by_cases hjX : j = X
      · rw [if_pos hjX] at hj
        injection hj with hj
        subst hj
        have hq2 : (none : Option Nat) = some q := hq
        cases hq2
      · rw [if_neg hjX] at hj
        by_cases hjp : j = p
        · rw [if_pos hjp] at hj
          injection hj with hj
          subst hj
          have hq2 : pn.parent = some q := hq
          rw [hjp]
          exact hrank p pn q hfp hq2
        · rw [if_neg hjp] at hj
          exact hrank j n q hj hq
  have hXroots : X ∉ s.roots := by
    intro hmem2
    have hiff := (W.roots_iff (X, xn) (Heap.find_mem hfX)).mpr hmem2
    simp only at hiff
    rw [hiff] at hXpar
    cases hXpar
  refine ⟨hWh', ?_, ?_, ?_⟩
  · rw [hroots]
    exact List.nodup_cons.mpr ⟨hXroots, W.roots_nodup⟩
  · intro q hq
    rw [hroots] at hq
    rw [hfind q]
    by_cases hqX : q = X
    · rw [if_pos hqX]
      rfl
    · rw [if_neg hqX]
      have hq2 : q ∈ s.roots := by
        rcases List.mem_cons.mp hq with hcase | hcase
        · exact absurd hcase hqX
        · exact hcase
      by_cases hqp : q = p
      · rw [if_pos hqp]
        rfl
      · rw [if_neg hqp]
        exact W.roots_live q hq2
  · intro e he
    obtain ⟨j, n⟩ := e
    have hje : s'.heap.find j = some n := Heap.mem_find_of_nodup hkeys' he
    rw [hfind j] at hje
    rw [hroots]
    simp only [List.mem_cons]
    by_cases hjX : j = X
    · rw [if_pos hjX] at hje
      injection hje with hje
      subst hje
      constructor
      · intro _
        exact Or.inl hjX
      · intro _
        rfl
    · rw [if_neg hjX] at hje
      by_cases hjp : j = p
      · rw [if_pos hjp] at hje
        injection hje with hje
        subst hje
        have hold := W.roots_iff (j, pn) ?_
        · constructor
          · intro hnone
            exact Or.inr (hold.mp hnone)
          · intro hcase
            rcases hcase with hcase | hcase
            · exact absurd hcase hjX
            · exact hold.mpr hcase
        · rw [hjp]
          exact Heap.find_mem hfp
      · rw [if_neg hjp] at hje
        have hold := W.roots_iff (j, n) (Heap.find_mem hje)
        constructor
        · intro hnone
          exact Or.inr (hold.mp hnone)
        · intro hcase
          rcases hcase with hcase | hcase
          · exact absurd hcase hjX
          · exact hold.mpr hcase

/-- On a well-formed state, the `is_descendant` guard succeeds exactly
on the strict descendants of the root. -/
theorem isDescendant_iff_strictDesc {s : TState} (W : WF s) (r i : Nat) :
    isDescendant s.heap r i ↔ (i ≠ r ∧ StrictDesc s.heap r i) := by
  unfold isDescendant hasDescendant
  rw [mem_ancestors_iff_strictDesc W.heapWF]

/-- When the guard holds, `detach_descendant` goes through: the
unwraps and the position search all succeed. -/
theorem detach_isSome {s : TState} {r i : Nat} (W : WF s) (hr : r ∈ s.roots)
    (hd : isDescendant s.heap r i) : (detachDescendant s r i).isSome := by
  have hanc : r ∈ s.heap.ancestors i := hd.2
  have hpex : ∃ p, s.heap.parentOf i = some p := by
    cases hpp : s.heap.parentOf i with
    | none =>
      rw [ancestors_of_parent_none hpp] at hanc
      simp at hanc
    | some p => exact ⟨p, rfl⟩
  obtain ⟨p, hp⟩ := hpex
  obtain ⟨pn, hfp⟩ := Option.isSome_iff_exists.mp (W.heapWF.parent_live hp)
  obtain ⟨n, hfi, hpar⟩ := parentOf_eq_some_iff.mp hp
  obtain ⟨m, hm, hmm⟩ := W.heapWF.find_parent_child hfi hpar
  rw [hfp] at hm
  injection hm with hm
  subst hm
  have hidx : pn.children.findIdx? (fun x => decide (x = i)) =
      some (pn.children.findIdx fun x => decide (x = i)) :=
    List.findIdx?_eq_some_of_exists ⟨i, hmm, by simp⟩
  obtain ⟨hlt, hget⟩ := findIdx_eq_getElem hidx
  unfold detachDescendant
  rw [if_pos hr, if_pos hd]
  simp only [hp, hfp, hidx, hget, Option.isSome_some]

/-- C1: `detach_descendant` and `borrow_descendant` return the empty
result iff the NodeRef denotes the root itself or fails to denote a
live strict descendant of that root (`StrictDesc` forces the node to be
reachable downward from the root, hence live and in this tree);
otherwise the non-empty result denotes exactly the referenced node. -/
theorem detach_borrow_guard_spec (s : TState) (r i : Nat) (W : WF s)
    (hr : r ∈ s.roots) :
    (detachDescendant s r i = none ↔ (i = r ∨ ¬ StrictDesc s.heap r i)) ∧
    (borrowDescendant s r i = none ↔ (i = r ∨ ¬ StrictDesc s.heap r i)) ∧
    (∀ x s', detachDescendant s r i = some (x, s') → x = i) ∧
    (∀ y, borrowDescendant s r i = some y → y = i) := by
  have hiff := isDescendant_iff_strictDesc W r i
  have hguard : ¬ isDescendant s.heap r i ↔ (i = r ∨ ¬ StrictDesc s.heap r i) := by
    rw [hiff]
    by_cases hir : i = r
    · simp [hir]
    · simp [hir]
  refine ⟨?_, ?_, ?_, ?_⟩
  · constructor
    · intro hnone
      rw [← hguard]
      intro hdesc
      have := detach_isSome W hr hdesc
      rw [hnone] at this
      cases this
    · intro hcond
      have hnd : ¬ isDescendant s.heap r i := hguard.mpr hcond
      unfold detachDescendant
      rw [if_pos hr, if_neg hnd]
  · constructor
    · intro hnone
      rw [← hguard]
      intro hdesc
      unfold borrowDescendant at hnone
      rw [if_pos ⟨hr, hdesc⟩] at hnone
      cases hnone
    · intro hcond
      have hnd : ¬ isDescendant s.heap r i := hguard.mpr hcond
      unfold borrowDescendant
      rw [if_neg (fun hand => hnd hand.2)]
  · intro x s' hdet
    obtain ⟨_, _, _, _, _, _, _, _, _, _, hxX, _, _⟩ := detach_unpack hdet
    exact hxX
  · intro y hb
    unfold borrowDescendant at hb
    by_cases hcond : r ∈ s.roots ∧ isDescendant s.heap r i
    · rw [if_pos hcond] at hb
      injection hb with hb
      exact hb.symm
    · rw [if_neg hcond] at hb
      cases hb

/-- Detaching `X` only clears `X`'s parent pointer; every other node
keeps its parent. -/
theorem detach_parentOf {s : TState} {r X x : Nat} {s' : TState} (W : WF s)
    (hdet : detachDescendant s r X = some (x, s')) :
    ∀ c, s'.heap.parentOf c = if c = X then none else s.heap.parentOf c := by
  obtain ⟨p, pn, xn, hr, hd, hfX, hXpar, hXp, hfp, hmem, hfind, hkeys, hroots, hxX⟩ :=
    detach_effect W hdet
  intro c
  unfold Heap.parentOf
  rw [hfind c]
  by_cases hcX : c = X
  · rw [if_pos hcX, if_pos hcX]
    rfl
  · rw [if_neg hcX, if_neg hcX]
    by_cases hcp : c = p
    · rw [if_pos hcp, hcp, hfp]
      rfl
    · rw [if_neg hcp]

/-- Every strict descendant of the detached node is still a strict
descendant of it in the new state: the subtree moves as a whole. -/
theorem detach_strictDesc_preserved {s : TState} {r X x : Nat} {s' : TState}
    (W : WF s) (hdet : detachDescendant s r X = some (x, s')) :
    ∀ y, StrictDesc s.heap X y → StrictDesc s'.heap X y := by
  obtain ⟨p, pn, xn, hr, hd, hfX, hXpar, hXp, hfp, hmem, hfind, hkeys, hroots, hxX⟩ :=
    detach_effect W hdet
  -- every child edge except the erased one `(p, X)` survives
  have hcs : ∀ u v, ChildStep s.heap u v → ¬(u = p ∧ v = X) → ChildStep s'.heap u v := by
    rintro u v ⟨n, hfu, hv⟩ hnot
    by_cases huX : u = X
    · refine ⟨{ xn with parent := none }, ?_, ?_⟩
      · rw [hfind u, if_pos huX]
      · rw [huX, hfX] at hfu
        injection hfu with hfu
        subst hfu
        exact hv
    · by_cases hup : u = p
      · have hvX : v ≠ X := fun hvv => hnot ⟨hup, hvv⟩
        refine ⟨{ pn with children := pn.children.erase X }, ?_, ?_⟩
        · rw [hfind u, if_neg huX, if_pos hup]
        · show v ∈ pn.children.erase X
          rw [hup, hfp] at hfu
          injection hfu with hfu
          subst hfu
          exact (List.mem_erase_of_ne hvX).mpr hv
      · refine ⟨n, ?_, hv⟩
        rw [hfind u, if_neg huX, if_neg hup]
        exact hfu
  intro y hy
  induction hy with
  | single hstep =>
    exact Relation.TransGen.single (hcs _ _ hstep (fun hand => hXp hand.1))
  | tail hprev hstep ih =>
    refine ih.tail (hcs _ _ hstep ?_)
    rintro ⟨hbp, hcX⟩
    subst hbp
    subst hcX
    exact no_strictDesc_self W.heapWF _ (hprev.tail hstep)

/-- C4: after detaching `X` from the tree rooted at `r`, every further
`detach_descendant`/`borrow_descendant` call against the original tree
with a ref to `X` or to any former strict descendant of `X` returns the
empty result (the detached tree is kept alive in the state, so the walk
dereferences only live nodes). -/
theorem stale_ref_spec {s : TState} {r X x ref : Nat} {s' : TState} (W : WF s)
    (hdet : detachDescendant s r X = some (x, s'))
    (href : ref = X ∨ StrictDesc s.heap X ref) :
    detachDescendant s' r ref = none ∧ borrowDescendant s' r ref = none := by
  obtain ⟨p, pn, xn, hr, hd, hfX, hXpar, hXp, hfp, hmem, hfind, hkeys, hroots, hxX⟩ :=
    detach_effect W hdet
  have W' : WF s' := detach_preserves_WF W hdet
  have hpar' := detach_parentOf W hdet
  have hXparless : s'.heap.parentOf X = none := by
    rw [hpar' X, if_pos rfl]
  have hrX : r ≠ X := fun he => hd.1 he.symm
  have hrparless : s'.heap.parentOf r = none := by
    rw [hpar' r, if_neg hrX]
    obtain ⟨rn, hfr⟩ := Option.isSome_iff_exists.mp (W.roots_live r hr)
    have := (W.roots_iff (r, rn) (Heap.find_mem hfr)).mpr hr
    simp only at this
    unfold Heap.parentOf
    rw [hfr]
    simp [this]
  have hnd : ¬ isDescendant s'.heap r ref := by
    rintro ⟨hne, hmemanc⟩
    unfold hasDescendant at hmemanc
    rcases href with rfl | hsd
    · rw [ancestors_of_parent_none hXparless] at hmemanc
      simp at hmemanc
    · have hsd' : StrictDesc s'.heap X ref := detach_strictDesc_preserved W hdet ref hsd
      have hXanc : X ∈ s'.heap.ancestors ref :=
        (mem_ancestors_iff_strictDesc W'.heapWF).mpr hsd'
      have := ancestors_parentless_unique W'.heapWF X hXanc hXparless
        r hmemanc hrparless
      exact hrX this
  constructor
  · unfold detachDescendant
    by_cases hr' : r ∈ s'.roots
    · rw [if_pos hr', if_neg hnd]
    · rw [if_neg hr']
  · unfold borrowDescendant
    rw [if_neg (fun hand => hnd hand.2)]

/-- C3: a successful `detach_descendant` returns exactly the referenced
node as the root of a new independent Tree, with its parent pointer
stripped, removed from its old parent's children, and with its own
subtree (children list, content, and every other heap cell) untouched. -/
theorem detach_result_spec {s : TState} {r X x : Nat} {s' : TState} (W : WF s)
    (hdet : detachDescendant s r X = some (x, s')) :
    x = X ∧ X ∈ s'.roots ∧
    (∃ xn, s.heap.find X = some xn ∧
      s'.heap.find X = some { xn with parent := none }) ∧
    (∃ p pn, s.heap.parentOf X = some p ∧ s.heap.find p = some pn ∧
      X ∈ pn.children ∧
      s'.heap.find p = some { pn with children := pn.children.erase X } ∧
      X ∉ childrenOf s'.heap p ∧
      (∀ j, j ≠ X → j ≠ p → s'.heap.find j = s.heap.find j)) := by
  obtain ⟨p, pn, xn, hr, hd, hfX, hXpar, hXp, hfp, hmem, hfind, hkeys, hroots, hxX⟩ :=
    detach_effect W hdet
  have hfX' : s'.heap.find X = some { xn with parent := none } := by
    rw [hfind X, if_pos rfl]
  have hfp' : s'.heap.find p = some { pn with children := pn.children.erase X } := by
    rw [hfind p, if_neg (Ne.symm hXp), if_pos rfl]
  refine ⟨hxX, ?_, ⟨xn, hfX, hfX'⟩, ⟨p, pn, ?_, hfp, hmem, hfp', ?_, ?_⟩⟩
  · rw [hroots]
    exact List.mem_cons_self _ _
  · rw [parentOf_eq_some_iff]
    exact ⟨xn, hfX, hXpar⟩
  · unfold childrenOf
    rw [hfp']
    exact (W.heapWF.find_children_nodup hfp).not_mem_erase
  · intro j hjX hjp
    rw [hfind j, if_neg hjX, if_neg hjp]

/-!
## Attaching: `append_child` and `insert_child`
-/

theorem append_unpack {s : TState} {p c : Nat} {s' : TState}
    (happ : appendChild s p c = some s') :
    c ∈ s.roots ∧ (s.heap.find p).isSome ∧ ¬ inTreeOf s.heap c p ∧
    s'.heap = (s.heap.upd c fun n => { n with parent := some p }).upd p
      (fun n => { n with children := n.children ++ [c] }) ∧
    s'.roots = s.roots.erase c := by
  unfold appendChild at happ
  split at happ
  case isTrue hcond =>
    injection happ with happ
    obtain ⟨h1, h2, h3⟩ := hcond
    exact ⟨h1, h2, h3, by rw [← happ], by rw [← happ]⟩
  case isFalse => cases happ

theorem insert_unpack {s : TState} {p c idx : Nat} {s' : TState}
    (hins : insertChild s p c idx = some s') :
    c ∈ s.roots ∧ ¬ inTreeOf s.heap c p ∧
    ∃ pn, s.heap.find p = some pn ∧ idx ≤ pn.children.length ∧
    s'.heap = (s.heap.upd c fun n => { n with parent := some p }).upd p
      (fun n => { n with children := n.children.insertIdx idx c }) ∧
    s'.roots = s.roots.erase c := by
  unfold insertChild at hins
  split at hins
  case isTrue hcond =>
    obtain ⟨h1, h2, h3⟩ := hcond
    split at hins
    case h_1 => cases hins
    case h_2 pn hfp =>
      split at hins
      case isTrue hle =>
        injection hins with hins
        exact ⟨h1, h3, pn, hfp, hle, by rw [← hins], by rw [← hins]⟩
      case isFalse => cases hins
  case isFalse => cases hins

/-- Common heap/rootlist effect of `append_child`/`insert_child`: the
child root's parent pointer is set to `p`, and the receiver's children
become `newch` (a permutation of `c` consed onto the old children — the
two operations differ only in where `c` lands). -/
theorem attach_effect {s : TState} {p c : Nat} {s' : TState}
    (newchf : List Nat → List Nat) (W : WF s)
    (hcroot : c ∈ s.roots) (hnotin : ¬ inTreeOf s.heap c p)
    (hplive : (s.heap.find p).isSome)
    (hheap : s'.heap = (s.heap.upd c fun n => { n with parent := some p }).upd p
      (fun n => { n with children := newchf n.children })) :
    ∃ cn pn, p ≠ c ∧
      s.heap.find c = some cn ∧ cn.parent = none ∧ s.heap.find p = some pn ∧
      (∀ j, s'.heap.find j =
        if j = c then some { cn with parent := some p }
        else if j = p then some { pn with children := newchf pn.children }
        else s.heap.find j) ∧
      s'.heap.map Prod.fst = s.heap.map Prod.fst := by
  have hpc : p ≠ c := fun he => hnotin (Or.inl he)
  obtain ⟨cn, hfc⟩ := Option.isSome_iff_exists.mp (W.roots_live c hcroot)
  have hcpar : cn.parent = none :=
    (W.roots_iff (c, cn) (Heap.find_mem hfc)).mpr hcroot
  obtain ⟨pn, hfp⟩ := Option.isSome_iff_exists.mp hplive
  refine ⟨cn, pn, hpc, hfc, hcpar, hfp, ?_, ?_⟩
  · intro j
    rw [hheap, Heap.find_upd, Heap.find_upd]
    by_cases hjc : j = c
    · rw [if_pos hjc, if_neg (hjc ▸ fun he => hpc he.symm), if_pos hjc, hjc, hfc]
      rfl
    · rw [if_neg hjc, if_neg hjc]
      by_cases hjp : j = p
      · rw [if_pos hjp, if_pos hjp, hjp, hfp]
        rfl
      · rw [if_neg hjp, if_neg hjp]
  · rw [hheap]
    simp

/-- Grafting a root `c` under a live node `p` outside `c`'s tree
preserves well-formedness, whatever position in the children list `c`
lands at. -/
theorem attach_preserves_WF {s : TState} {p c : Nat} {cn pn : BNode}
    {newch : List Nat} {s' : TState} (W : WF s)
    (hfc : s.heap.find c = some cn) (hcpar : cn.parent = none)
    (hfp : s.heap.find p = some pn) (hpc : p ≠ c)
    (hnotin : ¬ inTreeOf s.heap c p)
    (hperm : newch.Perm (c :: pn.children))
    (hfind : ∀ j, s'.heap.find j =
      if j = c then some { cn with parent := some p }
      else if j = p then some { pn with children := newch } else s.heap.find j)
    (hkeys : s'.heap.map Prod.fst = s.heap.map Prod.fst)
    (hroots : s'.roots = s.roots.erase c) : WF s' := by
  have Wh := W.heapWF
  have hparc : s.heap.parentOf c = none := by
    unfold Heap.parentOf
    rw [hfc]
    exact hcpar
  have hcInPn : c ∉ pn.children := by
    intro hcc
    have := Wh.find_child_parent hfp hcc
    rw [hparc] at this
    cases this
  have hmemnew : ∀ y, y ∈ newch ↔ (y = c ∨ y ∈ pn.children) := by
    intro y
    rw [hperm.mem_iff, List.mem_cons]
  have hndnew : newch.Nodup := by
    rw [hperm.nodup_iff]
    exact List.nodup_cons.mpr ⟨hcInPn, Wh.find_children_nodup hfp⟩
  have hpar' : ∀ j, s'.heap.parentOf j =
      if j = c then some p else s.heap.parentOf j := by
    intro j
    unfold Heap.parentOf
    rw [hfind j]
    by_cases hjc : j = c
    · rw [if_pos hjc, if_pos hjc]
      rfl
    · rw [if_neg hjc, if_neg hjc]
      by_cases hjp : j = p
      · rw [if_pos hjp, hjp, hfp]
        rfl
      · rw [if_neg hjp]
  have hch' : ∀ q, childrenOf s'.heap q =
      if q = p then newch else childrenOf s.heap q := by
    intro q
    unfold childrenOf
    rw [hfind q]
    by_cases hqc : q = c
    · rw [if_pos hqc, if_neg (hqc ▸ fun he => hpc he.symm), hqc, hfc]
      rfl
    · rw [if_neg hqc]
      by_cases hqp : q = p
      · rw [if_pos hqp, if_pos hqp]
        rfl
      · rw [if_neg hqp, if_neg hqp]
  have hkeys' : (s'.heap.map Prod.fst).Nodup := by
    rw [hkeys]
    exact Wh.keys_nodup
  have hWh' : WFHeap s'.heap := by
    refine wfHeap_of_find hkeys' ?_ ?_ ?_ ?_
    · -- child_parent
      intro j n hj ch hc
      rw [hfind j] at hj
      by_cases hjc : j = c
      · rw [if_pos hjc] at hj
        injection hj with hj
        subst hj
        have hc2 : ch ∈ cn.children := hc
        have hold := Wh.find_child_parent hfc hc2
        have hchc : ch ≠ c := by
          intro he
          rw [he, hparc] at hold
          cases hold
        rw [hpar' ch, if_neg hchc, hjc]
        exact hold
      · rw [if_neg hjc] at hj
        by_cases hjp : j = p
        · rw [if_pos hjp] at hj
          injection hj with hj
          subst hj
          have hc2 : ch ∈ newch := hc
          rcases (hmemnew ch).mp hc2 with rfl | hc3
          · rw [hpar' ch, if_pos rfl, hjp]
          · have hold := Wh.find_child_parent hfp hc3
            have hchc : ch ≠ c := by
              intro he
              rw [he, hparc] at hold
              cases hold
            rw [hpar' ch, if_neg hchc, hjp]
            exact hold
        · rw [if_neg hjp] at hj
          have hold := Wh.find_child_parent hj hc
          have hchc : ch ≠ c := by
            intro he
            rw [he, hparc] at hold
            cases hold
          rw [hpar' ch, if_neg hchc]
          exact hold
    · -- parent_child
      intro j n q hj hq
      rw [hfind j] at hj
      by_cases hjc : j = c
      · rw [if_pos hjc] at hj
        injection hj with hj
        subst hj
        have hq2 : (some p : Option Nat) = some q := hq
        injection hq2 with hq2
        rw [hch' q, ← hq2, if_pos rfl, hjc]
        exact (hmemnew c).mpr (Or.inl rfl)
      · rw [if_neg hjc] at hj
        by_cases hjp : j = p
        · rw [if_pos hjp] at hj
          injection hj with hj
          subst hj
          have hq2 : pn.parent = some q := hq
          obtain ⟨m, hm, hmm⟩ := Wh.find_parent_child hfp hq2
          have hqp : q ≠ p := by
            intro hqq
            rw [hqq] at hm
            exact no_strictDesc_self Wh p (Relation.TransGen.single ⟨m, hm, hmm⟩)
          rw [hch' q, if_neg hqp, hjp]
          exact mem_childrenOf_iff.mpr ⟨m, hm, hmm⟩
        · rw [if_neg hjp] at hj
          obtain ⟨m, hm, hmm⟩ := Wh.find_parent_child hj hq
          rw [hch' q]
          by_cases hqp : q = p
          · rw [if_pos hqp]
            rw [hqp, hfp] at hm
            injection hm with hm
            subst hm
            exact (hmemnew j).mpr (Or.inr hmm)
          · rw [if_neg hqp]
            exact mem_childrenOf_iff.mpr ⟨m, hm, hmm⟩
    · -- children_nodup
      intro j n hj
      rw [hfind j] at hj
      by_cases hjc : j = c
      · rw [if_pos hjc] at hj
        injection hj with hj
        subst hj
        show cn.children.Nodup
        exact Wh.find_children_nodup hfc
      · rw [if_neg hjc] at hj
        by_cases hjp : j = p
        · rw [if_pos hjp] at hj
          injection hj with hj
          subst hj
          exact hndnew
        · rw [if_neg hjp] at hj
          exact Wh.find_children_nodup hj
    · -- rank
      obtain ⟨rank, hrank⟩ := Wh.rank_lt_find
      have hntc_p : ¬ (p = c ∨ c ∈ s.heap.ancestors p) := hnotin
      have htc_step : ∀ j q, s.heap.parentOf j = some q →
          ((q = c ∨ c ∈ s.heap.ancestors q) ↔ c ∈ s.heap.ancestors j) := by
        intro j q hjq
        rw [ancestors_step Wh hjq, List.mem_cons]
        constructor
        · rintro (he | hmm)
          · exact Or.inl he.symm
          · exact Or.inr hmm
        · rintro (he | hmm)
          · exact Or.inl he.symm
          · exact Or.inr hmm
      refine ⟨fun j => if j = c ∨ c ∈ s.heap.ancestors j
        then rank j + rank p + 1 else rank j, ?_⟩
      intro j n q hj hq
      show (if q = c ∨ c ∈ s.heap.ancestors q then rank q + rank p + 1 else rank q) <
        (if j = c ∨ c ∈ s.heap.ancestors j then rank j + rank p + 1 else rank j)
      rw [hfind j] at hj
      by_cases hjc : j = c
      · rw [if_pos hjc] at hj
        injection hj with hj
        subst hj
        have hq2 : (some p : Option Nat) = some q := hq
        injection hq2 with hq2
        have hntc_q : ¬ (q = c ∨ c ∈ s.heap.ancestors q) := by
          rw [← hq2]
          exact hntc_p
        rw [if_pos (Or.inl hjc), if_neg hntc_q, ← hq2]
        omega
      · rw [if_neg hjc] at hj
        by_cases hjp : j = p
        · rw [if_pos hjp] at hj
          injection hj with hj
          subst hj
          have hq2 : pn.parent = some q := hq
          have hfpj : s.heap.find j = some pn := by
            rw [hjp]
            exact hfp
          have hpq : s.heap.parentOf j = some q := by
            unfold Heap.parentOf
            rw [hfpj]
            exact hq2
          have hlt := hrank j pn q hfpj hq2
          have hntc_j : ¬ (j = c ∨ c ∈ s.heap.ancestors j) := by
            rw [hjp]
            exact hntc_p
          have hntc_q : ¬ (q = c ∨ c ∈ s.heap.ancestors q) := by
            intro htc
            exact hntc_j (Or.inr ((htc_step j q hpq).mp htc))
          rw [if_neg hntc_q, if_neg hntc_j]
          exact hlt
        · rw [if_neg hjp] at hj
          have hpq : s.heap.parentOf j = some q := by
            unfold Heap.parentOf
            rw [hj]
            exact hq
          have hlt := hrank j n q hj hq
          by_cases htcj : j = c ∨ c ∈ s.heap.ancestors j
          · have hcj : c ∈ s.heap.ancestors j := by
              rcases htcj with he | hm
              · exact absurd he hjc
              · exact hm
            have htcq : q = c ∨ c ∈ s.heap.ancestors q := (htc_step j q hpq).mpr hcj
            rw [if_pos htcj, if_pos htcq]
            omega
          · have hntcq : ¬ (q = c ∨ c ∈ s.heap.ancestors q) := by
              intro htc
              exact htcj (Or.inr ((htc_step j q hpq).mp htc))
            rw [if_neg htcj, if_neg hntcq]
            exact hlt
  refine ⟨hWh', ?_, ?_, ?_⟩
  · rw [hroots]
    exact W.roots_nodup.sublist (List.erase_sublist _ _)
  · intro q hq
    rw [hroots] at hq
    have hq2 := List.mem_of_mem_erase hq
    rw [hfind q]
    by_cases hqc : q = c
    · rw [if_pos hqc]
      rfl
    · rw [if_neg hqc]
      by_cases hqp : q = p
      · rw [if_pos hqp]
        rfl
      · rw [if_neg hqp]
        exact W.roots_live q hq2
  · intro e he
    obtain ⟨j, n⟩ := e
    have hje : s'.heap.find j = some n := Heap.mem_find_of_nodup hkeys' he
    rw [hfind j] at hje
    rw [hroots]
    by_cases hjc : j = c
    · rw [if_pos hjc] at hje
      injection hje with hje
      subst hje
      constructor
      · intro hnone
        cases hnone
      · intro hmem2
        rw [hjc] at hmem2
        exact absurd hmem2 W.roots_nodup.not_mem_erase
    · rw [if_neg hjc] at hje
      by_cases hjp : j = p
      · rw [if_pos hjp] at hje
        injection hje with hje
        subst hje
        have hold := W.roots_iff (j, pn) (by rw [hjp]; exact Heap.find_mem hfp)
        constructor
        · intro hnone
          exact (List.mem_erase_of_ne hjc).mpr (hold.mp hnone)
        · intro hmem2
          exact hold.mpr (List.mem_of_mem_erase hmem2)
      · rw [if_neg hjp] at hje
        have hold := W.roots_iff (j, n) (Heap.find_mem hje)
        constructor
        · intro hnone
          exact (List.mem_erase_of_ne hjc).mpr (hold.mp hnone)
        · intro hmem2
          exact hold.mpr (List.mem_of_mem_erase hmem2)

/-- `append_child` preserves well-formedness. -/
theorem append_preserves_WF {s : TState} {p c : Nat} {s' : TState} (W : WF s)
    (happ : appendChild s p c = some s') : WF s' := by
  obtain ⟨hcroot, hplive, hnotin, hheap, hroots⟩ := append_unpack happ
  obtain ⟨cn, pn, hpc, hfc, hcpar, hfp, hfind, hkeys⟩ :=
    attach_effect (fun l => l ++ [c]) W hcroot hnotin hplive hheap
  exact attach_preserves_WF W hfc hcpar hfp hpc hnotin
    (List.perm_append_singleton c pn.children) hfind hkeys hroots

/-- `insert_child` (when it does not panic) preserves well-formedness. -/
theorem insert_preserves_WF {s : TState} {p c idx : Nat} {s' : TState} (W : WF s)
    (hins : insertChild s p c idx = some s') : WF s' := by
  obtain ⟨hcroot, hnotin, pn0, hfp0, hle, hheap, hroots⟩ := insert_unpack hins
  obtain ⟨cn, pn, hpc, hfc, hcpar, hfp, hfind, hkeys⟩ :=
    attach_effect (fun l => l.insertIdx idx c) W hcroot hnotin
      (by rw [hfp0]; rfl) hheap
  rw [hfp0] at hfp
  injection hfp with hfp
  subst hfp
  exact attach_preserves_WF W hfc hcpar hfp0 hpc hnotin
    (List.perm_insertIdx c pn0.children hle) hfind hkeys hroots

/-!
## Sequences of operations and the data-model invariants (§3)
-/

/-- One public mutating operation, with the nodes it refers to. -/
inductive Op where
  | append (p c : Nat)
  | insert (p c idx : Nat)
  | detach (r i : Nat)

/-- Apply one operation; an operation whose preconditions fail (or that
returns `None`/panics) leaves the state unchanged. -/
def step (s : TState) : Op → TState
  | .append p c => (appendChild s p c).getD s
  | .insert p c idx => (insertChild s p c idx).getD s
  | .detach r i =>
    match detachDescendant s r i with
    | some (_, s') => s'
    | none => s

/-- Apply a whole sequence of operations. -/
def run (s : TState) (ops : List Op) : TState :=
  ops.foldl step s

theorem step_preserves_WF {s : TState} (W : WF s) (op : Op) : WF (step s op) := by
  cases op with
  | append p c =>
    show WF ((appendChild s p c).getD s)
    cases happ : appendChild s p c with
    | none => exact W
    | some s' => exact append_preserves_WF W happ
  | insert p c idx =>
    show WF ((insertChild s p c idx).getD s)
    cases hins : insertChild s p c idx with
    | none => exact W
    | some s' => exact insert_preserves_WF W hins
  | detach r i =>
    show WF (match detachDescendant s r i with
      | some (_, s') => s'
      | none => s)
    cases hdet : detachDescendant s r i with
    | none => exact W
    | some xs =>
      obtain ⟨x, s'⟩ := xs
      exact detach_preserves_WF W hdet

theorem run_preserves_WF {s : TState} (W : WF s) (ops : List Op) : WF (run s ops) := by
  induction ops generalizing s with
  | nil => exact W
  | cons op ops ih => exact ih (step_preserves_WF W op)

/-- Invariant (a): every Tree's root is parentless. -/
def InvRootsParentless (s : TState) : Prop :=
  ∀ r ∈ s.roots, ∃ n, s.heap.find r = some n ∧ n.parent = none

/-- Invariant (b): every non-root node occurs in its parent's children
exactly once, and only there. -/
def InvChildrenExact (s : TState) : Prop :=
  ∀ i n p, s.heap.find i = some n → n.parent = some p →
    (∃ m, s.heap.find p = some m ∧ m.children.count i = 1) ∧
    (∀ q mq, s.heap.find q = some mq → i ∈ mq.children → q = p)

/-- Invariant (c): no node is its own ancestor — the parent chain from
any node reaches a parentless node without revisiting any node. -/
def InvAcyclic (s : TState) : Prop :=
  ∀ i n, s.heap.find i = some n →
    (i :: s.heap.ancestors i).Nodup ∧
    ∃ rt, (i :: s.heap.ancestors i).getLast? = some rt ∧ s.heap.parentOf rt = none

theorem WF_invRootsParentless {s : TState} (W : WF s) : InvRootsParentless s := by
  intro r hr
  obtain ⟨n, hfr⟩ := Option.isSome_iff_exists.mp (W.roots_live r hr)
  exact ⟨n, hfr, (W.roots_iff (r, n) (Heap.find_mem hfr)).mpr hr⟩

theorem WF_invChildrenExact {s : TState} (W : WF s) : InvChildrenExact s := by
  intro i n p hf hp
  constructor
  · obtain ⟨m, hm, hmm⟩ := W.heapWF.find_parent_child hf hp
    exact ⟨m, hm, List.count_eq_one_of_mem (W.heapWF.find_children_nodup hm) hmm⟩
  · intro q mq hq hiq
    have := W.heapWF.find_child_parent hq hiq
    rw [parentOf_eq_some_iff] at this
    obtain ⟨n2, hn2, hp2⟩ := this
    rw [hf] at hn2
    injection hn2 with hn2
    subst hn2
    rw [hp] at hp2
    injection hp2 with hp2
    exact hp2.symm

theorem WF_invAcyclic {s : TState} (W : WF s) : InvAcyclic s := by
  have Wh := W.heapWF
  obtain ⟨rank, hrank⟩ := Wh.rank_lt
  intro i n hf
  constructor
  · refine List.nodup_cons.mpr ⟨?_, ancWalk_nodup hrank _ i⟩
    intro hmem
    exact absurd (ancWalk_rank hrank _ i i hmem) (lt_irrefl _)
  · -- the chain ends at a parentless node
    have H : ∀ m, ∀ j, rank j ≤ m → (s.heap.find j).isSome →
        ∃ rt, (j :: s.heap.ancestors j).getLast? = some rt ∧
          s.heap.parentOf rt = none := by
      intro m
      induction m with
      | zero =>
        intro j hrj hlive
        cases hp : s.heap.parentOf j with
        | none => exact ⟨j, by rw [ancestors_of_parent_none hp]; rfl, hp⟩
        | some p => exact absurd (WFHeap.parentOf_rank hrank hp) (by omega)
      | succ m ih =>
        intro j hrj hlive
        cases hp : s.heap.parentOf j with
        | none => exact ⟨j, by rw [ancestors_of_parent_none hp]; rfl, hp⟩
        | some p =>
          have hplive := Wh.parent_live hp
          have hrp : rank p ≤ m := by
            have := WFHeap.parentOf_rank hrank hp
            omega
          obtain ⟨rt, hlast, hnone⟩ := ih p hrp hplive
          refine ⟨rt, ?_, hnone⟩
          rw [ancestors_step Wh hp]
          rw [List.getLast?_cons_cons]
          exact hlast
    exact H (rank i) i le_rfl (by rw [hf]; rfl)

/-!
## The builder (`NodeBuilder::build`, `src/node.rs` lines 42-97)

`build` allocates the root (parentless), then `build_children` allocates
each child with its parent pointer already set, recursively.  Fresh heap
allocation is modelled by a strictly increasing address counter.
-/

inductive NodeBuilder where
  | mk (content : Nat) (children : List NodeBuilder)

mutual

/-- Allocate the node described by `b` at address `i` with parent `par`;
returns the heap entries of the subtree and the next fresh address. -/
def buildNode : NodeBuilder → Option Nat → Nat → Heap × Nat
  | .mk content cs, par, i =>
    let r := buildChildren cs i (i + 1)
    ((i, ⟨content, par, r.2.1⟩) :: r.1, r.2.2)

/-- `build_children`: allocate each builder in order under parent
`par`; returns the heap entries, the list of child root addresses in
order, and the next fresh address. -/
def buildChildren : List NodeBuilder → Nat → Nat → Heap × List Nat × Nat
  | [], _, i => ([], [], i)
  | b :: bs, par, i =>
    let rb := buildNode b (some par) i
    let rs := buildChildren bs par rb.2
    (rb.1 ++ rs.1, i :: rs.2.1, rs.2.2)

end

/-- `NodeBuilder::build`: one fully wired `Tree`, root at address `0`. -/
def TState.build (b : NodeBuilder) : TState :=
  ⟨(buildNode b none 0).1, [0]⟩

/-- The heap `h` covers exactly the address segment `[lo, hi)`, with no
duplicate keys. -/
def HeapSeg (h : Heap) (lo hi : Nat) : Prop :=
  (∀ k, (Heap.find h k).isSome ↔ (lo ≤ k ∧ k < hi)) ∧ (h.map Prod.fst).Nodup

/-- Internal wiring of a built heap: every child pointer goes to a
larger address whose parent pointer points back, and children lists
have no duplicates. -/
def HeapWired (h : Heap) : Prop :=
  (∀ k n, Heap.find h k = some n → ∀ ch ∈ n.children,
    k < ch ∧ ∃ m, Heap.find h ch = some m ∧ m.parent = some k) ∧
  (∀ k n, Heap.find h k = some n → n.children.Nodup)

theorem HeapSeg.find_bounds {h : Heap} {lo hi k : Nat} (hseg : HeapSeg h lo hi)
    {n : BNode} (hf : Heap.find h k = some n) : lo ≤ k ∧ k < hi := by
  refine (hseg.1 k).mp ?_
  rw [hf]
  rfl

theorem HeapSeg.find_none {h : Heap} {lo hi k : Nat} (hseg : HeapSeg h lo hi)
    (hk : k < lo ∨ hi ≤ k) : Heap.find h k = none := by
  cases hfk : Heap.find h k with
  | none => rfl
  | some n =>
    have := hseg.find_bounds hfk
    omega

mutual

theorem buildNode_spec (b : NodeBuilder) (par : Option Nat) (i : Nat)
    (hpar : ∀ pp, par = some pp → pp < i) :
    ∀ h nxt, buildNode b par i = (h, nxt) →
    i < nxt ∧ HeapSeg h i nxt ∧
    (∃ n, Heap.find h i = some n ∧ n.parent = par) ∧
    (∀ k n, Heap.find h k = some n → k ≠ i →
      ∃ q, n.parent = some q ∧ i ≤ q ∧ q < k ∧
        ∃ m, Heap.find h q = some m ∧ k ∈ m.children) ∧
    HeapWired h := by
  obtain ⟨content, cs⟩ := b
  intro h nxt heq
  cases hbc : buildChildren cs i (i + 1) with
  | mk hc rest =>
    obtain ⟨ids, nc⟩ := rest
    simp only [buildNode, hbc] at heq
    injection heq with h1 h2
    subst h1
    subst h2
    obtain ⟨hle, hseg, hidnd, hidbd, hidroot, hnotid, hwired⟩ :=
      buildChildren_spec cs i (i + 1) (by omega) hc ids nc hbc
    have hfind : ∀ k, Heap.find ((i, ⟨content, par, ids⟩) :: hc) k =
        if k = i then some ⟨content, par, ids⟩ else Heap.find hc k := by
      intro k
      rw [Heap.find_cons]
    refine ⟨by omega, ⟨?_, ?_⟩, ?_, ?_, ?_, ?_⟩
    · -- segment
      intro k
      rw [hfind k]
      by_cases hk : k = i
      · simp only [if_pos hk]
        constructor
        · intro _
          omega
        · intro _
          rfl
      · rw [if_neg hk]
        rw [hseg.1 k]
        omega
    · -- keys nodup
      simp only [List.map_cons, List.nodup_cons]
      refine ⟨?_, hseg.2⟩
      intro hmem
      have : (Heap.find hc i).isSome := Heap.find_isSome_iff_mem_keys.mpr hmem
      rw [(hseg.1 i)] at this
      omega
    · -- root
      refine ⟨⟨content, par, ids⟩, ?_, rfl⟩
      rw [hfind i, if_pos rfl]
    · -- every non-root has its parent inside, pointing back
      intro k n hf hk
      rw [hfind k, if_neg hk] at hf
      by_cases hkid : k ∈ ids
      · obtain ⟨n2, hn2, hp2⟩ := hidroot k hkid
        rw [hf] at hn2
        injection hn2 with hn2
        subst hn2
        refine ⟨i, hp2, le_rfl, ?_, ⟨content, par, ids⟩, ?_, hkid⟩
        · exact (hidbd k hkid).1
        · rw [hfind i, if_pos rfl]
      · obtain ⟨q, hq, hq1, hq2, m, hm, hmm⟩ := hnotid k n hf hkid
        have hqi : q ≠ i := by
          have := hseg.find_bounds hm
          omega
        refine ⟨q, hq, by omega, hq2, m, ?_, hmm⟩
        rw [hfind q, if_neg hqi]
        exact hm
    · -- child wiring
      intro k n hf ch hch
      rw [hfind k] at hf
      by_cases hk : k = i
      · rw [if_pos hk] at hf
        injection hf with hf
        subst hf
        have hch2 : ch ∈ ids := hch
        obtain ⟨n2, hn2, hp2⟩ := hidroot ch hch2
        have hchi : ch ≠ i := by
          have := (hidbd ch hch2).1
          omega
        refine ⟨by rw [hk]; exact (hidbd ch hch2).1, n2, ?_, by rw [hk]; exact hp2⟩
        rw [hfind ch, if_neg hchi]
        exact hn2
      · rw [if_neg hk] at hf
        obtain ⟨hlt, m, hm, hmp⟩ := hwired.1 k n hf ch hch
        have hchi : ch ≠ i := by
          have := hseg.find_bounds hm
          omega
        refine ⟨hlt, m, ?_, hmp⟩
        rw [hfind ch, if_neg hchi]
        exact hm
    · -- children nodup
      intro k n hf
      rw [hfind k] at hf
      by_cases hk : k = i
      · rw [if_pos hk] at hf
        injection hf with hf
        subst hf
        exact hidnd
      · rw [if_neg hk] at hf
        exact hwired.2 k n hf

theorem buildChildren_spec (bs : List NodeBuilder) (par i : Nat) (hpar : par < i) :
    ∀ h ids nxt, buildChildren bs par i = (h, ids, nxt) →
    i ≤ nxt ∧ HeapSeg h i nxt ∧
    ids.Nodup ∧ (∀ id ∈ ids, i ≤ id ∧ id < nxt) ∧
    (∀ id ∈ ids, ∃ n, Heap.find h id = some n ∧ n.parent = some par) ∧
    (∀ k n, Heap.find h k = some n → k ∉ ids →
      ∃ q, n.parent = some q ∧ i ≤ q ∧ q < k ∧
        ∃ m, Heap.find h q = some m ∧ k ∈ m.children) ∧
    HeapWired h := by
  cases bs with
  | nil =>
    intro h ids nxt heq
    simp only [buildChildren] at heq
    injection heq with h1 h2
    injection h2 with h2 h3
    subst h1
    subst h2
    subst h3
    refine ⟨le_rfl, ⟨?_, by simp⟩, by simp, by simp, by simp, ?_, ?_, ?_⟩
    · intro k
      simp only [Heap.find_nil, Option.isSome_none]
      constructor
      · intro hfalse
        cases hfalse
      · intro hin
        omega
    · intro k n hf
      simp [Heap.find] at hf
    · intro k n hf
      simp [Heap.find] at hf
    · intro k n hf
      simp [Heap.find] at hf
  | cons b bs =>
    intro h ids nxt heq
    cases hbn : buildNode b (some par) i with
    | mk h1 n1 =>
      cases hbs : buildChildren bs par n1 with
      | mk h2 rest =>
        obtain ⟨ids2, n2⟩ := rest
        simp only [buildChildren, hbn, hbs] at heq
        injection heq with he1 he2
        injection he2 with he2 he3
        subst he1
        subst he2
        subst he3
        obtain ⟨hlt1, hseg1, hroot1, hup1, hwired1⟩ :=
          buildNode_spec b (some par) i (by intro pp hpp; injection hpp with hpp; omega)
            h1 n1 hbn
        obtain ⟨hle2, hseg2, hnd2, hbd2, hroot2, hup2, hwired2⟩ :=
          buildChildren_spec bs par n1 (by omega) h2 ids2 n2 hbs
        have hfind : ∀ k, Heap.find (h1 ++ h2) k =
            match Heap.find h1 k with
            | some n => some n
            | none => Heap.find h2 k := Heap.find_append h1 h2
        have hfind1 : ∀ k n, Heap.find h1 k = some n → Heap.find (h1 ++ h2) k = some n := by
          intro k n hf
          rw [hfind k, hf]
        have hfind2 : ∀ k n, Heap.find h2 k = some n → Heap.find (h1 ++ h2) k = some n := by
          intro k n hf
          have hbd := hseg2.find_bounds hf
          have hnone : Heap.find h1 k = none := hseg1.find_none (Or.inr (by omega))
          rw [hfind k, hnone]
          exact hf
        have hcases : ∀ k n, Heap.find (h1 ++ h2) k = some n →
            Heap.find h1 k = some n ∨ (Heap.find h1 k = none ∧ Heap.find h2 k = some n) := by
          intro k n hf
          rw [hfind k] at hf
          cases hf1 : Heap.find h1 k with
          | some m =>
            rw [hf1] at hf
            injection hf with hf
            subst hf
            exact Or.inl rfl
          | none =>
            rw [hf1] at hf
            exact Or.inr ⟨rfl, hf⟩
        refine ⟨by omega, ⟨?_, ?_⟩, ?_, ?_, ?_, ?_, ?_, ?_⟩
        · -- segment
          intro k
          rw [hfind k]
          cases hf1 : Heap.find h1 k with
          | some m =>
            have := hseg1.find_bounds hf1
            simp only
            constructor
            · intro _
              omega
            · intro _
              rfl
          | none =>
            have hout : ¬ (i ≤ k ∧ k < n1) := by
              intro hin
              have := (hseg1.1 k).mpr hin
              rw [hf1] at this
              cases this
            simp only
            rw [hseg2.1 k]
            omega
        · -- keys nodup
          rw [List.map_append, List.nodup_append]
          refine ⟨hseg1.2, hseg2.2, ?_⟩
          intro a ha hb
          have h1s := Heap.find_isSome_iff_mem_keys.mpr ha
          have h2s := Heap.find_isSome_iff_mem_keys.mpr hb
          rw [hseg1.1 a] at h1s
          rw [hseg2.1 a] at h2s
          omega
        · -- ids nodup
          refine List.nodup_cons.mpr ⟨?_, hnd2⟩
          intro hmem
          have := (hbd2 i hmem).1
          omega
        · -- ids bounds
          intro id hid
          rcases List.mem_cons.mp hid with rfl | hid2
          · omega
          · have := hbd2 id hid2
            omega
        · -- ids are roots with parent `par`
          intro id hid
          rcases List.mem_cons.mp hid with rfl | hid2
          · obtain ⟨n, hn, hp⟩ := hroot1
            exact ⟨n, hfind1 id n hn, hp⟩
          · obtain ⟨n, hn, hp⟩ := hroot2 id hid2
            exact ⟨n, hfind2 id n hn, hp⟩
        · -- non-ids have their parent inside, pointing back
          intro k n hf hk
          have hki : k ≠ i := fun he => hk (he ▸ List.mem_cons_self _ _)
          have hkids2 : k ∉ ids2 := fun hm => hk (List.mem_cons_of_mem _ hm)
          rcases hcases k n hf with hf1 | ⟨hf1, hf2⟩
          · obtain ⟨q, hqp, hq1, hq2, m, hm, hmm⟩ := hup1 k n hf1 hki
            exact ⟨q, hqp, hq1, hq2, m, hfind1 q m hm, hmm⟩
          · obtain ⟨q, hqp, hq1, hq2, m, hm, hmm⟩ := hup2 k n hf2 hkids2
            exact ⟨q, hqp, by omega, hq2, m, hfind2 q m hm, hmm⟩
        · -- child wiring
          intro k n hf ch hch
          rcases hcases k n hf with hf1 | ⟨hf1, hf2⟩
          · obtain ⟨hlt, m, hm, hmp⟩ := hwired1.1 k n hf1 ch hch
            exact ⟨hlt, m, hfind1 ch m hm, hmp⟩
          · obtain ⟨hlt, m, hm, hmp⟩ := hwired2.1 k n hf2 ch hch
            exact ⟨hlt, m, hfind2 ch m hm, hmp⟩
        · -- children nodup
          intro k n hf
          rcases hcases k n hf with hf1 | ⟨hf1, hf2⟩
          · exact hwired1.2 k n hf1
          · exact hwired2.2 k n hf2

end

/-- A freshly built Tree is well-formed. -/
theorem build_WF (b : NodeBuilder) : WF (TState.build b) := by
  unfold TState.build
  cases hbn : buildNode b none 0 with
  | mk h nxt =>
    obtain ⟨hlt, hseg, hroot, hup, hwired⟩ :=
      buildNode_spec b none 0 (by intro pp hpp; cases hpp) h nxt hbn
    obtain ⟨n0, hf0, hp0⟩ := hroot
    have hWh : WFHeap h := by
      refine wfHeap_of_find hseg.2 ?_ ?_ ?_ ?_
      · intro k n hf c hc
        obtain ⟨_, m, hm, hmp⟩ := hwired.1 k n hf c hc
        unfold Heap.parentOf
        rw [hm]
        exact hmp
      · intro k n p hf hp
        by_cases hk0 : k = 0
        · rw [hk0, hf0] at hf
          injection hf with hf
          subst hf
          rw [hp0] at hp
          cases hp
        · obtain ⟨q, hqp, _, _, m, hm, hmm⟩ := hup k n hf hk0
          rw [hp] at hqp
          injection hqp with hqp
          rw [hqp]
          exact mem_childrenOf_iff.mpr ⟨m, hm, hmm⟩
      · intro k n hf
        exact hwired.2 k n hf
      · refine ⟨fun j => j, ?_⟩
        intro k n p hf hp
        by_cases hk0 : k = 0
        · rw [hk0, hf0] at hf
          injection hf with hf
          subst hf
          rw [hp0] at hp
          cases hp
        · obtain ⟨q, hqp, _, hqk, _, _, _⟩ := hup k n hf hk0
          rw [hp] at hqp
          injection hqp with hqp
          show p < k
          omega
    refine ⟨hWh, List.nodup_singleton 0, ?_, ?_⟩
    · intro r hr
      rcases List.mem_singleton.mp hr with rfl
      rw [hf0]
      rfl
    · intro e he
      obtain ⟨k, n⟩ := e
      have hfk : Heap.find h k = some n := Heap.mem_find_of_nodup hseg.2 he
      by_cases hk0 : k = 0
      · rw [hk0, hf0] at hfk
        injection hfk with hfk
        subst hfk
        simp [hk0, hp0]
      · obtain ⟨q, hqp, _, _, _, _, _⟩ := hup k n hfk hk0
        constructor
        · intro hnone
          rw [hnone] at hqp
          cases hqp
        · intro hmem
          exact absurd (List.mem_singleton.mp hmem) hk0

/-- C2: after any sequence of `append_child`/`insert_child`/
`detach_descendant` operations applied to a built Tree, (a) every root
is parentless, (b) every non-root node appears in its parent's children
exactly once — and nowhere else — with its parent pointer resolving to
that exact parent, and (c) no node is its own ancestor: the parent
chain from any node reaches a parentless root without revisiting any
node. -/
theorem invariant_preservation_spec (b : NodeBuilder) (ops : List Op) :
    InvRootsParentless (run (TState.build b) ops) ∧
    InvChildrenExact (run (TState.build b) ops) ∧
    InvAcyclic (run (TState.build b) ops) := by
  have W := run_preserves_WF (build_WF b) ops
  exact ⟨WF_invRootsParentless W, WF_invChildrenExact W, WF_invAcyclic W⟩

/-- C6 counterexample: `insert_child` at position `1` on a node with no
children does not report the out-of-range condition as an empty/absent
result — it panics (`Vec::insert` aborts).  The function returns `()` in
Rust; there is no `Option` channel at all. -/
theorem insert_child_panic_counterexample :
    insertChildNode [(0, ⟨7, none, []⟩), (1, ⟨8, none, []⟩)] 0 1 1 =
      InsertOutcome.panicked := rfl

/-- C6 (amended): `insert_child` with a position strictly greater than
the current number of children panics (aborts) — the condition is not
reported as a value at all; with a position within bounds it completes. -/
theorem insert_child_panic_iff {h : Heap} {p c idx : Nat} {pn : BNode}
    (hfp : h.find p = some pn) (hpc : p ≠ c) :
    (insertChildNode h p c idx = InsertOutcome.panicked ↔
      pn.children.length < idx) := by
  unfold insertChildNode
  have hfp1 : (h.upd c fun n => { n with parent := some p }).find p = some pn := by
    rw [Heap.find_upd_other _ hpc]
    exact hfp
  simp only [hfp1]
  by_cases hle : idx ≤ pn.children.length
  · rw [if_pos hle]
    constructor
    · intro hc
      cases hc
    · intro hlen
      omega
  · rw [if_neg hle]
    exact ⟨fun _ => by omega, fun _ => rfl⟩

/-- C9: detaching a node and re-appending it under a different parent
preserves its identity (the returned root is the same address, so
`is_same_as` with the original NodeRef still holds), its content and its
whole subtree (its own children list and every descendant's heap cell
are untouched); the new parent's children now contain it and the old
parent's children no longer do. -/
theorem detach_reattach_spec {s s1 s2 : TState} {r X x q : Nat} (W : WF s)
    (hdet : detachDescendant s r X = some (x, s1))
    (happ : appendChild s1 q x = some s2)
    (hne : s.heap.parentOf X ≠ some q) :
    x = X ∧
    (∃ xn, s.heap.find X = some xn ∧
      s2.heap.find X = some { xn with parent := some q }) ∧
    (∀ j, StrictDesc s.heap X j → s2.heap.find j = s.heap.find j) ∧
    X ∈ childrenOf s2.heap q ∧
    (∀ p, s.heap.parentOf X = some p → X ∉ childrenOf s2.heap p) := by
  obtain ⟨p, pn, xn, hr, hd, hfX, hXpar, hXp, hfp, hmem, hfind1, hkeys1, hroots1, hxX⟩ :=
    detach_effect W hdet
  subst hxX
  have W1 : WF s1 := detach_preserves_WF W hdet
  obtain ⟨hcroot, hplive, hnotin, hheap2, hroots2⟩ := append_unpack happ
  obtain ⟨cn, pn2, hqX, hfc, hcpar, hfq, hfind2, hkeys2⟩ :=
    attach_effect (fun l => l ++ [x]) W1 hcroot hnotin hplive hheap2
  have hpX : s.heap.parentOf x = some p := by
    rw [parentOf_eq_some_iff]
    exact ⟨xn, hfX, hXpar⟩
  have hqp : q ≠ p := by
    intro he
    rw [he] at hne
    exact hne hpX
  have hfs1X : s1.heap.find x = some { xn with parent := none } := by
    rw [hfind1 x, if_pos rfl]
  have hcn : cn = { xn with parent := none } := by
    rw [hfc] at hfs1X
    injection hfs1X
  refine ⟨rfl, ⟨xn, hfX, ?_⟩, ?_, ?_, ?_⟩
  · rw [hfind2 x, if_pos rfl, hcn]
  · intro j hsd
    have hjX : j ≠ x := by
      intro he
      exact no_strictDesc_self W.heapWF x (he ▸ hsd)
    have hjp : j ≠ p := by
      intro he
      exact no_strictDesc_self W.heapWF x
        ((he ▸ hsd).tail ⟨pn, hfp, hmem⟩)
    have hsd1 : StrictDesc s1.heap x j := detach_strictDesc_preserved W hdet j hsd
    have hanc1 : x ∈ s1.heap.ancestors j :=
      (mem_ancestors_iff_strictDesc W1.heapWF).mpr hsd1
    have hjq : j ≠ q := by
      intro he
      exact hnotin (Or.inr (he ▸ hanc1))
    rw [hfind2 j, if_neg hjX, if_neg hjq, hfind1 j, if_neg hjX, if_neg hjp]
  · unfold childrenOf
    rw [hfind2 q, if_neg hqX, if_pos rfl]
    simp
  · intro p2 hp2
    rw [hpX] at hp2
    injection hp2 with hp2
    subst hp2
    have hpx : p ≠ x := Ne.symm hXp
    have hpq : p ≠ q := Ne.symm hqp
    unfold childrenOf
    rw [hfind2 p, if_neg hpx, if_neg hpq, hfind1 p, if_neg hpx, if_pos rfl]
    show x ∉ pn.children.erase x
    exact (W.heapWF.find_children_nodup hfp).not_mem_erase

/-- C10: rc-variant `Node::detach` returns `None` exactly when the node
has no living parent — its `parent` field is absent, or the parent
allocation is gone so the `Weak` upgrade fails; otherwise it removes the
node from its parent's children, clears the parent pointer and returns
the node as a new tree root.  No reachability check against any tree
root is performed: the success case depends only on the node's own
living parent. -/
theorem rc_detach_spec :
    (∀ (h : Heap) (i : Nat) (n : BNode), h.find i = some n → n.parent = none →
      rcDetach h i = none) ∧
    (∀ (h : Heap) (i p : Nat) (n : BNode), h.find i = some n → n.parent = some p →
      h.find p = none → rcDetach h i = none) ∧
    (∀ (h : Heap) (i p : Nat), WFHeap h → rcParent h i = some p →
      ∃ n pn h2, h.find i = some n ∧ h.find p = some pn ∧
        rcDetach h i = some (i, h2) ∧
        h2.find i = some { n with parent := none } ∧
        h2.find p = some { pn with children := pn.children.erase i } ∧
        (∀ j, j ≠ i → j ≠ p → h2.find j = h.find j)) := by
  refine ⟨?_, ?_, ?_⟩
  · intro h i n hfi hpar
    have hrp : rcParent h i = none := by
      unfold rcParent
      rw [hfi]
      simp [hpar]
    unfold rcDetach
    rw [hrp]
  · intro h i p n hfi hpar hfp
    have hrp : rcParent h i = none := by
      unfold rcParent
      rw [hfi]
      simp [hpar, hfp]
    unfold rcDetach
    rw [hrp]
  · intro h i p Wh hrp
    have hunp : ∃ n, h.find i = some n ∧ n.parent = some p ∧ (h.find p).isSome := by
      unfold rcParent at hrp
      cases hfi : h.find i with
      | none => rw [hfi] at hrp; cases hrp
      | some n =>
        rw [hfi] at hrp
        have hnb : (n.parent.bind fun q =>
            if (h.find q).isSome = true then some q else none) = some p := hrp
        cases hpar : n.parent with
        | none => rw [hpar] at hnb; cases hnb
        | some p0 =>
          rw [hpar] at hnb
          have hif : (if (h.find p0).isSome = true then some p0 else none) = some p := hnb
          by_cases hs : (h.find p0).isSome = true
          · rw [if_pos hs] at hif
            injection hif with hif
            subst hif
            exact ⟨n, rfl, hpar, hs⟩
          · rw [if_neg hs] at hif
            cases hif
    obtain ⟨n, hfi, hpar, hps⟩ := hunp
    obtain ⟨pn, hfp⟩ := Option.isSome_iff_exists.mp hps
    have hpOf : h.parentOf i = some p := by
      unfold Heap.parentOf
      rw [hfi]
      exact hpar
    have hip : p ≠ i := by
      obtain ⟨rank, hrank⟩ := Wh.rank_lt
      have hlt := WFHeap.parentOf_rank hrank hpOf
      intro he
      rw [he] at hlt
      exact absurd hlt (lt_irrefl _)
    obtain ⟨m, hm, hmm⟩ := Wh.find_parent_child hfi hpar
    rw [hfp] at hm
    injection hm with hm
    subst hm
    have hidx0 : pn.children.findIdx? (fun y => decide (y = i)) =
        some (pn.children.findIdx fun y => decide (y = i)) :=
      List.findIdx?_eq_some_of_exists ⟨i, hmm, by simp⟩
    obtain ⟨idx, hidx⟩ : ∃ k, pn.children.findIdx? (fun y => decide (y = i)) = some k :=
      ⟨_, hidx0⟩
    obtain ⟨hlt, hget⟩ := findIdx_eq_getElem hidx
    have herase := eraseIdx_eq_erase_of_nodup (Wh.find_children_nodup hfp) hlt hget
    refine ⟨n, pn,
      (h.upd p fun nn => { nn with children := nn.children.eraseIdx idx }).upd i
        (fun nn => { nn with parent := none }), hfi, hfp, ?_, ?_, ?_, ?_⟩
    · unfold rcDetach
      rw [hrp]
      simp only [hfp, hidx]
    · rw [Heap.find_upd]
      rw [if_pos rfl, Heap.find_upd_other _ (Ne.symm hip), hfi]
      rfl
    · rw [Heap.find_upd_other _ hip, Heap.find_upd, if_pos rfl, hfp]
      simp only [Option.map]
      rw [herase]
    · intro j hji hjp
      rw [Heap.find_upd_other _ hji, Heap.find_upd_other _ hjp]

/-!
## Concrete states used to instantiate the theorems

`wState` is the tree `10` with children `11` (which has child `13`) and
`12`, at addresses `0, 1, 2, 3`.  `wState1` is the result of detaching
node `1`; `wState2` the result of then appending it under node `2`.
-/

def wState : TState :=
  ⟨[(0, ⟨10, none, [1, 2]⟩), (1, ⟨11, some 0, [3]⟩), (2, ⟨12, some 0, []⟩),
    (3, ⟨13, some 1, []⟩)], [0]⟩

def wState1 : TState :=
  ⟨[(0, ⟨10, none, [2]⟩), (1, ⟨11, none, [3]⟩), (2, ⟨12, some 0, []⟩),
    (3, ⟨13, some 1, []⟩)], [1, 0]⟩

def wState2 : TState :=
  ⟨[(0, ⟨10, none, [2]⟩), (1, ⟨11, some 2, [3]⟩), (2, ⟨12, some 0, [1]⟩),
    (3, ⟨13, some 1, []⟩)], [0]⟩

theorem wState_WF : WF wState := by
  refine ⟨⟨?_, ?_, ?_, ?_, ⟨fun j => j, ?_⟩⟩, ?_, ?_, ?_⟩ <;> decide

/-- Witness for C1 at the concrete state: node `3` is a live strict
descendant of root `0`. -/
theorem detach_borrow_guard_spec_witness :
    0 ∈ wState.roots ∧
    ((detachDescendant wState 0 3 = none ↔ (3 = 0 ∨ ¬ StrictDesc wState.heap 0 3)) ∧
     (borrowDescendant wState 0 3 = none ↔ (3 = 0 ∨ ¬ StrictDesc wState.heap 0 3)) ∧
     (∀ x s', detachDescendant wState 0 3 = some (x, s') → x = 3) ∧
     (∀ y, borrowDescendant wState 0 3 = some y → y = 3)) :=
  ⟨by decide, detach_borrow_guard_spec wState 0 3 wState_WF (by decide)⟩

/-- Witness for C3: detaching node `1` from `wState` yields `wState1`. -/
theorem detach_result_spec_witness :
    detachDescendant wState 0 1 = some (1, wState1) ∧
    (1 = 1 ∧ 1 ∈ wState1.roots ∧
      (∃ xn, wState.heap.find 1 = some xn ∧
        wState1.heap.find 1 = some { xn with parent := none }) ∧
      (∃ p pn, wState.heap.parentOf 1 = some p ∧ wState.heap.find p = some pn ∧
        1 ∈ pn.children ∧
        wState1.heap.find p = some { pn with children := pn.children.erase 1 } ∧
        1 ∉ childrenOf wState1.heap p ∧
        (∀ j, j ≠ 1 → j ≠ p → wState1.heap.find j = wState.heap.find j))) := by
  have hdet : detachDescendant wState 0 1 = some (1, wState1) := by decide
  exact ⟨hdet, detach_result_spec wState_WF hdet⟩

/-- Witness for C4: after detaching node `1`, a ref to its former child
`3` finds nothing in the original tree. -/
theorem stale_ref_spec_witness :
    detachDescendant wState 0 1 = some (1, wState1) ∧
    (3 = 1 ∨ StrictDesc wState.heap 1 3) ∧
    (detachDescendant wState1 0 3 = none ∧ borrowDescendant wState1 0 3 = none) := by
  have hdet : detachDescendant wState 0 1 = some (1, wState1) := by decide
  have hstep : ChildStep wState.heap 1 3 :=
    ⟨⟨11, some 0, [3]⟩, by decide, by decide⟩
  exact ⟨hdet, Or.inr (Relation.TransGen.single hstep),
    stale_ref_spec wState_WF hdet (Or.inr (Relation.TransGen.single hstep))⟩

/-- Witness for the amended C6: on a node with no children, position
`1` is out of range and the call panics. -/
theorem insert_child_panic_iff_witness :
    Heap.find [(0, ⟨7, none, []⟩), (1, ⟨8, none, []⟩)] 0 = some ⟨7, none, []⟩ ∧
    (insertChildNode [(0, ⟨7, none, []⟩), (1, ⟨8, none, []⟩)] 0 1 1 =
      InsertOutcome.panicked ↔ (⟨7, none, []⟩ : BNode).children.length < 1) := by
  have hfp : Heap.find [(0, ⟨7, none, []⟩), (1, ⟨8, none, []⟩)] 0 =
      some ⟨7, none, []⟩ := by decide
  exact ⟨hfp, insert_child_panic_iff hfp (by decide)⟩

/-- Witness for C9: detach node `1` from `wState`, re-append it under
node `2`. -/
theorem detach_reattach_spec_witness :
    detachDescendant wState 0 1 = some (1, wState1) ∧
    appendChild wState1 2 1 = some wState2 ∧
    wState.heap.parentOf 1 ≠ some 2 ∧
    (1 = 1 ∧
      (∃ xn, wState.heap.find 1 = some xn ∧
        wState2.heap.find 1 = some { xn with parent := some 2 }) ∧
      (∀ j, StrictDesc wState.heap 1 j → wState2.heap.find j = wState.heap.find j) ∧
      1 ∈ childrenOf wState2.heap 2 ∧
      (∀ p, wState.heap.parentOf 1 = some p → 1 ∉ childrenOf wState2.heap p)) := by
  have hdet : detachDescendant wState 0 1 = some (1, wState1) := by decide
  have happ : appendChild wState1 2 1 = some wState2 := by decide
  have hne : wState.heap.parentOf 1 ≠ some 2 := by decide
  exact ⟨hdet, happ, hne, detach_reattach_spec wState_WF hdet happ hne⟩

/-- Witness for C10: a parentless root, a node whose parent was
dropped, and a normally attached node. -/
theorem rc_detach_spec_witness :
    rcDetach [(0, ⟨7, none, []⟩)] 0 = none ∧
    rcDetach [(5, ⟨7, some 9, []⟩)] 5 = none ∧
    (∃ n pn h2, wState.heap.find 1 = some n ∧ wState.heap.find 0 = some pn ∧
      rcDetach wState.heap 1 = some (1, h2) ∧
      h2.find 1 = some { n with parent := none } ∧
      h2.find 0 = some { pn with children := pn.children.erase 1 } ∧
      (∀ j, j ≠ 1 → j ≠ 0 → h2.find j = wState.heap.find j)) :=
  ⟨rc_detach_spec.1 _ 0 ⟨7, none, []⟩ (by decide) (by decide),
   rc_detach_spec.2.1 _ 5 9 ⟨7, some 9, []⟩ (by decide) (by decide) (by decide),
   rc_detach_spec.2.2 wState.heap 1 0 wState_WF.heapWF (by decide)⟩

end TreeStruct
